import Mathlib

/-!
# Formal model of the run-evaluation pipeline (`analyze_outputs.py`)

This file gives a shallow embedding of the convergence-analysis core of the
design-doc repository: run discovery, lineage reconstruction, sequence
assignment, per-run metrics and sequence summaries, together with theorems
checking the natural-language specification against the embedded code.

Modelling conventions:
* Python strings are Lean `String`s; Python string comparison is lexicographic
  on Unicode code points, which we implement directly (`charListLt`) because it
  must be executable.
* Python `float` values are modelled as `ℚ`; `round(x, n)` is modelled as
  exact round-half-to-even on rationals (`pyRound`).
* Python `set[str]` is `Finset String`; `None` is `Option.none`.
* In-place mutation of run records is modelled functionally: each pipeline
  stage maps the record list to an updated record list.
-/

namespace AnalyzeOutputs

/-- Lexicographic comparison of character lists by code point: the order
Python uses to compare `str` values. -/
def charListLt : List Char → List Char → Bool
  | [], [] => false
  | [], _ :: _ => true
  | _ :: _, [] => false
  | a :: as, b :: bs => if a < b then true else if b < a then false else charListLt as bs

/-- Python `a < b` on strings. -/
def strLt (a b : String) : Bool := charListLt a.data b.data

theorem charListLt_irrefl : ∀ l : List Char, charListLt l l = false
  | [] => rfl
  | a :: as => by
    simp only [charListLt, lt_irrefl, if_false, charListLt_irrefl as]

theorem charListLt_trans : ∀ {a b c : List Char},
    charListLt a b = true → charListLt b c = true → charListLt a c = true
  | [], [], _, hab, _ => by simp [charListLt] at hab
  | _ :: _, [], _, hab, _ => by simp [charListLt] at hab
  | [], _ :: _, [], _, hbc => by simp [charListLt] at hbc
  | _ :: _, _ :: _, [], _, hbc => by simp [charListLt] at hbc
  | [], _ :: _, _ :: _, _, _ => rfl
  | a :: as, b :: bs, c :: cs, hab, hbc => by
    simp only [charListLt] at hab hbc ⊢
    rcases lt_trichotomy a b with h1 | h1 | h1
    · rcases lt_trichotomy b c with h2 | h2 | h2
      · rw [if_pos (lt_trans h1 h2)]
      · subst h2; rw [if_pos h1]
      · rw [if_neg (lt_asymm h2), if_pos h2] at hbc
        exact absurd hbc (by simp)
    · subst h1
      rw [if_neg (lt_irrefl a), if_neg (lt_irrefl a)] at hab
      rcases lt_trichotomy a c with h2 | h2 | h2
      · rw [if_pos h2]
      · subst h2
        rw [if_neg (lt_irrefl a), if_neg (lt_irrefl a)] at hbc ⊢
        exact charListLt_trans hab hbc
      · rw [if_neg (lt_asymm h2), if_pos h2] at hbc
        exact absurd hbc (by simp)
    · rw [if_neg (lt_asymm h1), if_pos h1] at hab
      exact absurd hab (by simp)

theorem charListLt_trichotomy : ∀ a b : List Char,
    charListLt a b = true ∨ charListLt b a = true ∨ a = b
  | [], [] => Or.inr (Or.inr rfl)
  | [], _ :: _ => Or.inl rfl
  | _ :: _, [] => Or.inr (Or.inl rfl)
  | a :: as, b :: bs => by
    rcases lt_trichotomy a b with h | h | h
    · exact Or.inl (by simp [charListLt, h])
    · subst h
      rcases charListLt_trichotomy as bs with h' | h' | h'
      · exact Or.inl (by simp [charListLt, h'])
      · exact Or.inr (Or.inl (by simp [charListLt, h']))
      · exact Or.inr (Or.inr (by simp [h']))
    · exact Or.inr (Or.inl (by simp [charListLt, h]))

theorem strLt_trans {a b c : String} (h1 : strLt a b = true) (h2 : strLt b c = true) :
    strLt a c = true := charListLt_trans h1 h2

theorem strLt_irrefl (a : String) : strLt a a = false := charListLt_irrefl a.data

theorem strLt_trichotomy (a b : String) :
    strLt a b = true ∨ strLt b a = true ∨ a = b := by
  rcases charListLt_trichotomy a.data b.data with h | h | h
  · exact Or.inl h
  · exact Or.inr (Or.inl h)
  · exact Or.inr (Or.inr (String.ext h))

theorem strLt_asymm {a b : String} (h : strLt a b = true) : strLt b a = false := by
  by_contra hc
  have h2 : strLt b a = true := by
    cases hv : strLt b a
    · exact absurd hv hc
    · rfl
  have := strLt_trans h h2
  rw [strLt_irrefl] at this
  exact Bool.false_ne_true this

/-- Python `(a1, a2) < (b1, b2)` on pairs of strings. -/
def pairLt (x y : String × String) : Bool :=
  strLt x.1 y.1 || (x.1 == y.1 && strLt x.2 y.2)

/-- Python `(a1, a2) <= (b1, b2)` on pairs of strings. -/
def pairLe (x y : String × String) : Bool :=
  pairLt x y || (x.1 == y.1 && x.2 == y.2)

theorem pairLe_refl (x : String × String) : pairLe x x = true := by
  simp [pairLe]

theorem pairLt_trans {x y z : String × String}
    (h1 : pairLt x y = true) (h2 : pairLt y z = true) : pairLt x z = true := by
  simp only [pairLt, Bool.or_eq_true, Bool.and_eq_true, beq_iff_eq] at h1 h2 ⊢
  rcases h1 with h1 | ⟨he1, h1⟩
  · rcases h2 with h2 | ⟨he2, _⟩
    · exact Or.inl (strLt_trans h1 h2)
    · exact Or.inl (he2 ▸ h1)
  · rcases h2 with h2 | ⟨he2, h2⟩
    · exact Or.inl (he1 ▸ h2)
    · exact Or.inr ⟨he1.trans he2, strLt_trans h1 h2⟩

theorem pairLe_trans {x y z : String × String}
    (h1 : pairLe x y = true) (h2 : pairLe y z = true) : pairLe x z = true := by
  simp only [pairLe, Bool.or_eq_true, Bool.and_eq_true, beq_iff_eq] at h1 h2 ⊢
  rcases h1 with h1 | ⟨he1, he1'⟩
  · rcases h2 with h2 | ⟨he2, he2'⟩
    · exact Or.inl (pairLt_trans h1 h2)
    · obtain ⟨x1, x2⟩ := y
      obtain ⟨z1, z2⟩ := z
      simp only at he2 he2'
      subst he2; subst he2'
      exact Or.inl h1
  · obtain ⟨x1, x2⟩ := x
    simp only at he1 he1'
    subst he1; subst he1'
    rcases h2 with h2 | ⟨he2, he2'⟩
    · exact Or.inl h2
    · exact Or.inr ⟨he2, he2'⟩

theorem pairLe_total (x y : String × String) : (pairLe x y || pairLe y x) = true := by
  simp only [pairLe, pairLt, Bool.or_eq_true, Bool.and_eq_true, beq_iff_eq]
  rcases strLt_trichotomy x.1 y.1 with h | h | h
  · tauto
  · tauto
  · rcases strLt_trichotomy x.2 y.2 with h' | h' | h' <;> tauto

theorem pairLt_irrefl (x : String × String) : pairLt x x = false := by
  simp [pairLt, strLt_irrefl]

/-- `x < y` and `x ≤ y` are related as in Python: `x ≤ y ∧ x ≠ y → x < y`. -/
theorem pairLt_of_pairLe_ne {x y : String × String}
    (h : pairLe x y = true) (hne : x ≠ y) : pairLt x y = true := by
  simp only [pairLe, Bool.or_eq_true, Bool.and_eq_true, beq_iff_eq] at h
  rcases h with h | ⟨h1, h2⟩
  · exact h
  · exact absurd (Prod.ext h1 h2) hne

/-! ## Python's stable `list.sort`

Python's sort is stable; a stable sort for a given total preorder is unique,
so it is modelled by a structurally recursive stable insertion sort (which
also lets concrete instances evaluate inside the kernel). -/

def pyInsert {α : Type} (le : α → α → Bool) (a : α) : List α → List α
  | [] => [a]
  | b :: l => if le a b then a :: b :: l else b :: pyInsert le a l

def pySort {α : Type} (le : α → α → Bool) : List α → List α
  | [] => []
  | a :: l => pyInsert le a (pySort le l)

theorem pyInsert_perm {α : Type} (le : α → α → Bool) (a : α) :
    ∀ l : List α, (pyInsert le a l).Perm (a :: l)
  | [] => .refl _
  | b :: l => by
    unfold pyInsert
    by_cases h : le a b = true
    · rw [if_pos h]
    · rw [if_neg h]
      exact ((pyInsert_perm le a l).cons b).trans (List.Perm.swap a b l)

theorem pySort_perm {α : Type} (le : α → α → Bool) : ∀ l : List α, (pySort le l).Perm l
  | [] => .refl _
  | a :: l => (pyInsert_perm le a _).trans ((pySort_perm le l).cons a)

theorem pyInsert_sorted {α : Type} (le : α → α → Bool)
    (htrans : ∀ a b c, le a b = true → le b c = true → le a c = true)
    (htot : ∀ a b, (le a b || le b a) = true) (a : α) :
    ∀ l : List α, l.Pairwise (fun x y => le x y = true) →
      (pyInsert le a l).Pairwise (fun x y => le x y = true)
  | [], _ => by simp [pyInsert]
  | b :: l, h => by
    unfold pyInsert
    by_cases hab : le a b = true
    · rw [if_pos hab]
      refine List.pairwise_cons.mpr ⟨?_, h⟩
      intro x hx
      rcases List.mem_cons.mp hx with rfl | hx
      · exact hab
      · exact htrans a b x hab ((List.pairwise_cons.mp h).1 x hx)
    · rw [if_neg hab]
      have hba : le b a = true := by
        have h' := htot a b
        cases hab' : le b a
        · rw [hab', Bool.or_false] at h'
          exact absurd h' hab
        · rfl
      rw [List.pairwise_cons] at h
      refine List.pairwise_cons.mpr ⟨?_, pyInsert_sorted le htrans htot a l h.2⟩
      intro x hx
      have hx' := (pyInsert_perm le a l).mem_iff.mp hx
      rcases List.mem_cons.mp hx' with rfl | hx''
      · exact hba
      · exact h.1 x hx''

theorem pySort_sorted {α : Type} (le : α → α → Bool)
    (htrans : ∀ a b c, le a b = true → le b c = true → le a c = true)
    (htot : ∀ a b, (le a b || le b a) = true) :
    ∀ l : List α, (pySort le l).Pairwise (fun x y => le x y = true)
  | [] => by simp [pySort]
  | a :: l => pyInsert_sorted le htrans htot a _ (pySort_sorted le htrans htot l)

/-! ## The RunRecord data model (`RunRecord` dataclass, lines 30-55)

The `manifest : dict` field is dropped: after loading, the pipeline only reads
the manifest through the `output_dir` and `timestamp` fields extracted from it.
`run_dir : Path` is modelled as the list of path components. -/

structure RunRecord where
  run_id : String
  run_dir : List String
  output_dir : String
  timestamp : String
  qa_status : Option String
  qa_issue_count : Option Nat
  qa_issue_sections : Finset String
  design_doc_exists : Bool
  design_doc_text : String
  design_doc_hash : Option String
  review_report_hash : Option String
  previous_design_doc_hash : Option String
  previous_review_report_hash : Option String
  required_sections_total : Nat
  required_sections_completed : Nat
  required_sections_completion_pct : ℚ
  section_artifacts_total : Nat
  section_artifacts_present : Nat
  section_artifacts_valid : Nat
  section_artifacts_completion_pct : ℚ
  parent_run_id : Option String := none
  sequence_id : Option String := none
  sequence_index : Option Nat := none
deriving DecidableEq

/-- The sort key `(r.timestamp, r.run_id)` used throughout the source. -/
def runKey (r : RunRecord) : String × String := (r.timestamp, r.run_id)

/-- `≤` on run records by `(timestamp, run_id)`. -/
def keyLe (a b : RunRecord) : Bool := pairLe (runKey a) (runKey b)

theorem keyLe_trans (a b c : RunRecord) (h1 : keyLe a b = true) (h2 : keyLe b c = true) :
    keyLe a c = true := pairLe_trans h1 h2

theorem keyLe_total (a b : RunRecord) : (keyLe a b || keyLe b a) = true :=
  pairLe_total _ _

/-- `runs.sort(key=lambda r: (r.timestamp, r.run_id))`: Python's stable sort. -/
def sortRuns (l : List RunRecord) : List RunRecord := pySort keyLe l

theorem sortRuns_perm (l : List RunRecord) : (sortRuns l).Perm l :=
  pySort_perm keyLe l

theorem sortRuns_sorted (l : List RunRecord) :
    (sortRuns l).Pairwise (fun a b => keyLe a b = true) :=
  pySort_sorted keyLe keyLe_trans keyLe_total l

/-- In a list that is `Pairwise le`, the last element is `le`-above every
element (given reflexivity at the last element itself). -/
theorem getLast?_is_max {l : List RunRecord} {c : RunRecord}
    (hs : l.Pairwise (fun a b => keyLe a b = true)) (hl : l.getLast? = some c) :
    ∀ x ∈ l, x = c ∨ keyLe x c = true := by
  obtain ⟨ys, rfl⟩ := List.getLast?_eq_some_iff.mp hl
  intro x hx
  rcases List.mem_append.mp hx with hx | hx
  · exact Or.inr ((List.pairwise_append.mp hs).2.2 x hx c (List.mem_singleton_self c))
  · exact Or.inl (List.mem_singleton.mp hx)

/-! ## Lineage reconstruction (`reconstruct_lineage`, lines 178-197)

The source builds reverse indices `by_doc_hash` / `by_report_hash` mapping a
run's own artifact hash to the runs carrying it (skipping runs whose hash is
`None` or `""`, which are falsy), then looks up `r.previous_design_doc_hash`
(with a fallback to `r.previous_review_report_hash` when the first lookup
yields an empty candidate list).  A dictionary lookup of a (truthy) key `h`
returns exactly the runs whose hash equals `h`, in list order, so the index
plus lookup is modelled as a filter. -/

def doc_hash_candidates (runs : List RunRecord) (r : RunRecord) : List RunRecord :=
  match r.previous_design_doc_hash with
  | none => []
  | some h => if h = "" then [] else runs.filter (fun c => c.design_doc_hash == some h)

def report_hash_candidates (runs : List RunRecord) (r : RunRecord) : List RunRecord :=
  match r.previous_review_report_hash with
  | none => []
  | some h => if h = "" then [] else runs.filter (fun c => c.review_report_hash == some h)

/-- Candidate parents of `r` after the self/causality filter (lines 188-193). -/
def parent_candidates (runs : List RunRecord) (r : RunRecord) : List RunRecord :=
  let doc := doc_hash_candidates runs r
  let cands := if doc.isEmpty then report_hash_candidates runs r else doc
  cands.filter (fun c => c.run_id != r.run_id && strLt c.timestamp r.timestamp)

/-- One iteration of the `for run in runs` loop of `reconstruct_lineage`:
sort the candidates by `(timestamp, run_id)` and take the last, if any. -/
def lineage_step (runs : List RunRecord) (r : RunRecord) : RunRecord :=
  let pc := parent_candidates runs r
  match (pySort keyLe pc).getLast? with
  | none => r
  | some c => { r with parent_run_id := some c.run_id }

/-- `reconstruct_lineage` only reads fields that it never writes
(hashes, timestamps, run ids), so the in-place mutation loop is
equivalent to a map over the snapshot of the input records. -/
def reconstruct_lineage (runs : List RunRecord) : List RunRecord :=
  runs.map (lineage_step runs)

/-! ## Claim-side characterisation of lineage candidates -/

/-- `c`'s own document hash equals `r`'s recorded previous-document hash. -/
def DocMatch (r c : RunRecord) : Prop :=
  ∃ h, r.previous_design_doc_hash = some h ∧ c.design_doc_hash = some h

/-- `c`'s own review-report hash equals `r`'s recorded previous-review hash. -/
def ReviewMatch (r c : RunRecord) : Prop :=
  ∃ h, r.previous_review_report_hash = some h ∧ c.review_report_hash = some h

/-- The claim's description of a surviving parent candidate for `r`: a run
whose document hash matches `r`'s previous-document hash (or, when no loaded
run matches that hash, whose review-report hash matches `r`'s previous-review
hash), other than `r` itself and strictly earlier than `r`. -/
def IsSurvivor (runs : List RunRecord) (r c : RunRecord) : Prop :=
  c ∈ runs ∧ c ≠ r ∧ strLt c.timestamp r.timestamp = true ∧
    (DocMatch r c ∨ ((∀ d ∈ runs, ¬ DocMatch r d) ∧ ReviewMatch r c))

theorem mem_doc_hash_candidates {runs : List RunRecord} {r c : RunRecord}
    (hne : r.previous_design_doc_hash ≠ some "") :
    c ∈ doc_hash_candidates runs r ↔ c ∈ runs ∧ DocMatch r c := by
  cases hp : r.previous_design_doc_hash with
  | none => simp [doc_hash_candidates, DocMatch, hp]
  | some h =>
    have hh : h ≠ "" := fun he => hne (he ▸ hp)
    simp only [doc_hash_candidates, hp, if_neg hh, List.mem_filter, beq_iff_eq, DocMatch]
    constructor
    · rintro ⟨hm, hd⟩
      exact ⟨hm, h, rfl, hd⟩
    · rintro ⟨hm, h', he, hd⟩
      obtain rfl : h = h' := Option.some_inj.mp he
      exact ⟨hm, hd⟩

theorem mem_report_hash_candidates {runs : List RunRecord} {r c : RunRecord}
    (hne : r.previous_review_report_hash ≠ some "") :
    c ∈ report_hash_candidates runs r ↔ c ∈ runs ∧ ReviewMatch r c := by
  cases hp : r.previous_review_report_hash with
  | none => simp [report_hash_candidates, ReviewMatch, hp]
  | some h =>
    have hh : h ≠ "" := fun he => hne (he ▸ hp)
    simp only [report_hash_candidates, hp, if_neg hh, List.mem_filter, beq_iff_eq, ReviewMatch]
    constructor
    · rintro ⟨hm, hd⟩
      exact ⟨hm, h, rfl, hd⟩
    · rintro ⟨hm, h', he, hd⟩
      obtain rfl : h = h' := Option.some_inj.mp he
      exact ⟨hm, hd⟩

/-- Membership in the filtered candidate list coincides with the claim's
surviving-candidate description (given unique run ids and hashes that are
never the empty string, as SHA-256 digests are). -/
theorem mem_parent_candidates {runs : List RunRecord} {r c : RunRecord}
    (hnd : (runs.map RunRecord.run_id).Nodup) (hr : r ∈ runs)
    (hne1 : r.previous_design_doc_hash ≠ some "")
    (hne2 : r.previous_review_report_hash ≠ some "") :
    c ∈ parent_candidates runs r ↔ IsSurvivor runs r c := by
  unfold parent_candidates IsSurvivor
  simp only [List.mem_filter, Bool.and_eq_true, bne_iff_ne]
  constructor
  · rintro ⟨hm, hid, hts⟩
    by_cases hd : (doc_hash_candidates runs r).isEmpty
    · rw [if_pos hd] at hm
      have hmem := (@mem_report_hash_candidates runs r c hne2).mp hm
      have hnone : ∀ d ∈ runs, ¬ DocMatch r d := by
        intro d hdm hmatch
        have : d ∈ doc_hash_candidates runs r :=
          (mem_doc_hash_candidates hne1).mpr ⟨hdm, hmatch⟩
        rw [List.isEmpty_iff] at hd
        simp [hd] at this
      exact ⟨hmem.1, fun he => hid (he ▸ rfl), hts, Or.inr ⟨hnone, hmem.2⟩⟩
    · rw [if_neg hd] at hm
      have hmem := (@mem_doc_hash_candidates runs r c hne1).mp hm
      exact ⟨hmem.1, fun he => hid (he ▸ rfl), hts, Or.inl hmem.2⟩
  · rintro ⟨hm, hne, hts, hcase⟩
    have hid : c.run_id ≠ r.run_id := by
      intro he
      exact hne (List.inj_on_of_nodup_map hnd hm hr he)
    rcases hcase with hdm | ⟨hnone, hrm⟩
    · have hcmem : c ∈ doc_hash_candidates runs r :=
        (mem_doc_hash_candidates hne1).mpr ⟨hm, hdm⟩
      have hd : ¬ (doc_hash_candidates runs r).isEmpty := by
        rw [List.isEmpty_iff]
        intro he
        simp [he] at hcmem
      rw [if_neg hd]
      exact ⟨hcmem, hid, hts⟩
    · have hd : (doc_hash_candidates runs r).isEmpty := by
        rw [List.isEmpty_iff, List.eq_nil_iff_forall_not_mem]
        intro d hdm
        have := (@mem_doc_hash_candidates runs r d hne1).mp hdm
        exact hnone d this.1 this.2
      rw [if_pos hd]
      exact ⟨(mem_report_hash_candidates hne2).mpr ⟨hm, hrm⟩, hid, hts⟩

/-- C1: after lineage reconstruction: `parent_run_id` is set iff some
candidate survives the hash lookup (document hash first, review-report hash
only when the document lookup yields nothing), the self-exclusion and the
strictly-earlier-timestamp filter; when set, the parent is the surviving
candidate with the greatest `(timestamp, run_id)` pair, so every assigned
parent is strictly earlier than its child; otherwise the run stays a root. -/
theorem C1_lineage_parent (runs : List RunRecord)
    (hnd : (runs.map RunRecord.run_id).Nodup)
    (r : RunRecord) (hr : r ∈ runs) (hroot : r.parent_run_id = none)
    (hne1 : r.previous_design_doc_hash ≠ some "")
    (hne2 : r.previous_review_report_hash ≠ some "") :
    ((¬ ∃ c, IsSurvivor runs r c) → (lineage_step runs r).parent_run_id = none) ∧
    ((∃ c, IsSurvivor runs r c) → ∃ c, IsSurvivor runs r c ∧
      (lineage_step runs r).parent_run_id = some c.run_id ∧
      (∀ d, IsSurvivor runs r d → pairLe (runKey d) (runKey c) = true) ∧
      strLt c.timestamp r.timestamp = true) := by
  constructor
  · intro hno
    have hempty : parent_candidates runs r = [] := by
      rw [List.eq_nil_iff_forall_not_mem]
      intro c hc
      exact hno ⟨c, (mem_parent_candidates hnd hr hne1 hne2).mp hc⟩
    simp [lineage_step, hempty, hroot, pySort]
  · rintro ⟨c0, hc0⟩
    have hmem : c0 ∈ parent_candidates runs r :=
      (mem_parent_candidates hnd hr hne1 hne2).mpr hc0
    have hne : pySort keyLe (parent_candidates runs r) ≠ [] := by
      intro he
      have hp := pySort_perm keyLe (parent_candidates runs r)
      rw [he] at hp
      rw [hp.symm.eq_nil] at hmem
      simp at hmem
    obtain ⟨c, hlast⟩ : ∃ c, (pySort keyLe (parent_candidates runs r)).getLast? = some c :=
      ⟨_, List.getLast?_eq_getLast _ hne⟩
    have hcmem : c ∈ parent_candidates runs r := by
      have h1 : c ∈ pySort keyLe (parent_candidates runs r) := by
        obtain ⟨ys, hys⟩ := List.getLast?_eq_some_iff.mp hlast
        rw [hys]
        simp
      exact (pySort_perm keyLe _).mem_iff.mp h1
    have hcs : IsSurvivor runs r c := (mem_parent_candidates hnd hr hne1 hne2).mp hcmem
    refine ⟨c, hcs, ?_, ?_, hcs.2.2.1⟩
    · simp [lineage_step, hlast]
    · intro d hd
      have hdmem : d ∈ pySort keyLe (parent_candidates runs r) :=
        (pySort_perm keyLe _).mem_iff.mpr
          ((mem_parent_candidates hnd hr hne1 hne2).mpr hd)
      rcases getLast?_is_max
          (pySort_sorted keyLe keyLe_trans keyLe_total _) hlast d hdmem with h | h
      · subst h; exact pairLe_refl _
      · exact h

/-- A minimal run record used for concrete witnesses. -/
def mkRun (id ts : String) (ddh rrh pdh prh : Option String) : RunRecord :=
  { run_id := id, run_dir := ["outputs", "d", id], output_dir := id, timestamp := ts,
    qa_status := none, qa_issue_count := none, qa_issue_sections := ∅,
    design_doc_exists := false, design_doc_text := "",
    design_doc_hash := ddh, review_report_hash := rrh,
    previous_design_doc_hash := pdh, previous_review_report_hash := prh,
    required_sections_total := 0, required_sections_completed := 0,
    required_sections_completion_pct := 0, section_artifacts_total := 0,
    section_artifacts_present := 0, section_artifacts_valid := 0,
    section_artifacts_completion_pct := 0 }

/-- Two-run chain: `wB` copied `wA`'s document, so `wA` is its parent. -/
def wA : RunRecord := mkRun "run_a" "t1" (some "hA") (some "rA") none none

def wB : RunRecord := mkRun "run_b" "t2" (some "hB") (some "rB") (some "hA") none

theorem C1_lineage_parent_witness :
    ∃ c, IsSurvivor [wA, wB] wB c ∧
      (lineage_step [wA, wB] wB).parent_run_id = some c.run_id ∧
      (∀ d, IsSurvivor [wA, wB] wB d → pairLe (runKey d) (runKey c) = true) ∧
      strLt c.timestamp wB.timestamp = true :=
  (C1_lineage_parent [wA, wB] (by decide) wB (by decide) rfl (by decide) (by decide)).2
    ⟨wA, by decide, by decide, by decide, Or.inl ⟨"hA", rfl, rfl⟩⟩

/-- C10: when `r.previous_design_doc_hash` matches the document hash of at
least one loaded run, the review-report-hash fallback is never consulted:
even if every document-hash match is removed by the self/earlier-timestamp
filter, `r` keeps `parent_run_id` unset — including when its
previous-review-report hash matches a strictly earlier run. -/
theorem C10_doc_hash_blocks_fallback (runs : List RunRecord) (r : RunRecord)
    (h : String) (hh : h ≠ "")
    (hprev : r.previous_design_doc_hash = some h)
    (hmatch : ∃ c ∈ runs, c.design_doc_hash = some h)
    (hfiltered : ∀ c ∈ runs, c.design_doc_hash = some h →
      ¬(c.run_id ≠ r.run_id ∧ strLt c.timestamp r.timestamp = true))
    (hroot : r.parent_run_id = none) :
    (lineage_step runs r).parent_run_id = none := by
  have hdoc : doc_hash_candidates runs r = runs.filter (fun c => c.design_doc_hash == some h) := by
    simp only [doc_hash_candidates, hprev, if_neg hh]
  have hdoc_ne : ¬ (doc_hash_candidates runs r).isEmpty := by
    rw [List.isEmpty_iff, hdoc]
    obtain ⟨c, hc, hch⟩ := hmatch
    intro hcon
    have : c ∈ runs.filter (fun c => c.design_doc_hash == some h) :=
      List.mem_filter.mpr ⟨hc, by simp [hch]⟩
    simp [hcon] at this
  have hempty : parent_candidates runs r = [] := by
    simp only [parent_candidates]
    rw [if_neg hdoc_ne, List.eq_nil_iff_forall_not_mem]
    intro c hc
    rw [List.mem_filter] at hc
    obtain ⟨hc1, hc2⟩ := hc
    rw [hdoc, List.mem_filter] at hc1
    simp only [Bool.and_eq_true, bne_iff_ne] at hc2
    exact hfiltered c hc1.1 (by simpa using hc1.2) ⟨hc2.1, hc2.2⟩
  simp [lineage_step, hempty, hroot, pySort]

/-- Concrete check for C10: `w1`'s review-report hash matches `wC`'s
previous-review hash and `w1` is strictly earlier, but since `w2` (later than
`wC`) matches `wC`'s previous-document hash, the fallback is skipped and `wC`
stays a lineage root. -/
def w1 : RunRecord := mkRun "run_1" "t1" (some "h1") (some "r1") none none

def w2 : RunRecord := mkRun "run_2" "t9" (some "h2") (some "r2") none none

def wC : RunRecord := mkRun "run_c" "t5" (some "hC") (some "rC") (some "h2") (some "r1")

theorem C10_doc_hash_blocks_fallback_witness :
    (lineage_step [w1, w2, wC] wC).parent_run_id = none ∧
    ReviewMatch wC w1 ∧ strLt w1.timestamp wC.timestamp = true :=
  ⟨C10_doc_hash_blocks_fallback [w1, w2, wC] wC "h2" (by decide) rfl
      ⟨w2, by decide, rfl⟩ (by decide) rfl,
    ⟨"r1", rfl, rfl⟩, by decide⟩

/-! ## Sequence assignment (`assign_sequences`, lines 200-243)

`by_id = {r.run_id: r for r in runs}` is a Python dict, so a parent reference
resolves iff some loaded run carries that id.  A run goes into
`children[parent]` iff its `parent_run_id` is truthy and resolvable,
otherwise it is a root; `children.get(pid, [])` therefore returns exactly the
runs whose resolvable parent id equals `pid` (in input order, then sorted), so
the adjacency dict is modelled as a filter. -/

def id_resolvable (runs : List RunRecord) (p : String) : Bool :=
  runs.any (fun c => c.run_id == p)

/-- The resolvable parent link of `r` (`none` when `r` is treated as a root). -/
def parent_link (runs : List RunRecord) (r : RunRecord) : Option String :=
  match r.parent_run_id with
  | none => none
  | some p => if p = "" then none else if id_resolvable runs p then some p else none

/-- `children.get(pid, [])` after the per-value sort (lines 209-210). -/
def children_of (runs : List RunRecord) (pid : String) : List RunRecord :=
  pySort keyLe (runs.filter (fun r => parent_link runs r == some pid))

/-- The sorted root list (lines 207-211). -/
def roots_of (runs : List RunRecord) : List RunRecord :=
  pySort keyLe (runs.filter (fun r => parent_link runs r == none))

/-- Termination measure for the BFS while-loop: pending queue entries plus,
for every run not yet visited, one visit step and its queue extension. -/
def bfs_weight (runs : List RunRecord) (visited : List String) : Nat :=
  (runs.map (fun r =>
    if visited.contains r.run_id then 0 else 1 + (children_of runs r.run_id).length)).sum

theorem weight_term_mono (visited : List String) (x i : String) (t : Nat) :
    (if (x :: visited).contains i then 0 else t) ≤ (if visited.contains i then 0 else t) := by
  by_cases h : visited.contains i = true
  · have h2 : (x :: visited).contains i = true := by
      rw [List.contains_cons, h, Bool.or_true]
    rw [if_pos h, if_pos h2]
  · rw [if_neg h]
    by_cases h2 : (x :: visited).contains i = true
    · rw [if_pos h2]
      exact Nat.zero_le _
    · rw [if_neg h2]

theorem bfs_weight_mono (runs : List RunRecord) (visited : List String) (x : String) :
    bfs_weight runs (x :: visited) ≤ bfs_weight runs visited :=
  List.sum_le_sum fun r _ => weight_term_mono visited x r.run_id _

theorem bfs_weight_drop (runs : List RunRecord) (visited : List String) (x : String)
    (r0 : RunRecord) (hr0 : r0 ∈ runs) (hid : r0.run_id = x)
    (hnv : visited.contains x = false) :
    bfs_weight runs (x :: visited) + (1 + (children_of runs x).length) ≤
      bfs_weight runs visited := by
  obtain ⟨l1, l2, rfl⟩ := List.append_of_mem hr0
  unfold bfs_weight
  rw [List.map_append, List.map_cons, List.sum_append, List.sum_cons,
    List.map_append, List.map_cons, List.sum_append, List.sum_cons]
  have hterm0 : (if visited.contains r0.run_id then 0
      else 1 + (children_of (l1 ++ r0 :: l2) r0.run_id).length) =
      1 + (children_of (l1 ++ r0 :: l2) r0.run_id).length := by
    rw [hid, hnv]
    simp
  have hterm1 : (if (x :: visited).contains r0.run_id then 0
      else 1 + (children_of (l1 ++ r0 :: l2) r0.run_id).length) = 0 := by
    rw [hid, List.contains_cons]
    simp
  rw [hterm0, hterm1, hid]
  have g1 := List.sum_le_sum (l := l1)
    (f := fun r => if (x :: visited).contains r.run_id then 0
      else 1 + (children_of (l1 ++ r0 :: l2) r.run_id).length)
    (g := fun r => if visited.contains r.run_id then 0
      else 1 + (children_of (l1 ++ r0 :: l2) r.run_id).length)
    (fun i _ => weight_term_mono visited x i.run_id _)
  have g2 := List.sum_le_sum (l := l2)
    (f := fun r => if (x :: visited).contains r.run_id then 0
      else 1 + (children_of (l1 ++ r0 :: l2) r.run_id).length)
    (g := fun r => if visited.contains r.run_id then 0
      else 1 + (children_of (l1 ++ r0 :: l2) r.run_id).length)
    (fun i _ => weight_term_mono visited x i.run_id _)
  omega

theorem parent_link_resolvable {runs : List RunRecord} {r : RunRecord} {p : String}
    (h : parent_link runs r = some p) : id_resolvable runs p = true := by
  cases hp : r.parent_run_id with
  | none => simp [parent_link, hp] at h
  | some p' =>
    simp only [parent_link, hp] at h
    by_cases h1 : p' = ""
    · rw [if_pos h1] at h; exact absurd h (by simp)
    · rw [if_neg h1] at h
      by_cases h2 : id_resolvable runs p' = true
      · rw [if_pos h2] at h
        obtain rfl : p' = p := Option.some_inj.mp h
        exact h2
      · rw [if_neg h2] at h; exact absurd h (by simp)

theorem id_resolvable_exists {runs : List RunRecord} {p : String}
    (h : id_resolvable runs p = true) : ∃ r0 ∈ runs, r0.run_id = p := by
  obtain ⟨r0, hr0, he⟩ := List.any_eq_true.mp h
  exact ⟨r0, hr0, beq_iff_eq.mp he⟩

/-- The BFS while-loop over the work queue (lines 222-230), with the shared
`visited` set threaded through and the collected members accumulated.  Every
iteration either drops a queue entry or visits a fresh id (queueing its
children), so the loop runs at most `queue.length + bfs_weight runs visited`
steps: that much fuel is exact, and `bfsAux_spec` proves it never runs out. -/
def bfsAux (runs : List RunRecord) :
    Nat → List RunRecord → List String → List RunRecord → List String × List RunRecord
  | 0, _, visited, acc => (visited, acc)
  | _ + 1, [], visited, acc => (visited, acc)
  | fuel + 1, q :: queue, visited, acc =>
    if visited.contains q.run_id then bfsAux runs fuel queue visited acc
    else bfsAux runs fuel (queue ++ children_of runs q.run_id) (q.run_id :: visited)
      (acc ++ [q])

def bfs (runs : List RunRecord) (queue : List RunRecord) (visited : List String)
    (acc : List RunRecord) : List String × List RunRecord :=
  bfsAux runs (queue.length + bfs_weight runs visited) queue visited acc

/-- `f"{n:03d}"`: decimal digits padded to width 3. -/
def pad3 (n : Nat) : String :=
  if n < 10 then "00" ++ toString n
  else if n < 100 then "0" ++ toString n
  else toString n

/-- `f"seq_{r.run_dir.parent.name}_{n:03d}"` (lines 221 and 240). -/
def seq_label (r : RunRecord) (n : Nat) : String :=
  "seq_" ++ (r.run_dir.dropLast.getLast?.getD "") ++ "_" ++ pad3 n

/-- Lines 232-234: `for idx, run in enumerate(seq_runs, start=1)` assigning
the shared sequence id and the 1-based index. -/
def annotate_seq (sid : String) (l : List RunRecord) : List RunRecord :=
  l.mapIdx (fun i r => { r with sequence_id := some sid, sequence_index := some (i + 1) })

/-- The body of the `for root in roots` loop (lines 217-235), acting on the
state `(visited, seq_num, sequences)`. -/
def assign_step (runs : List RunRecord)
    (st : List String × Nat × List (List RunRecord)) (root : RunRecord) :
    List String × Nat × List (List RunRecord) :=
  if st.1.contains root.run_id then st
  else
    let n := st.2.1 + 1
    let res := bfs runs [root] st.1 []
    (res.1, n, st.2.2 ++ [annotate_seq (seq_label root n) (pySort keyLe res.2)])

/-- `assign_sequences` (lines 200-243): traverse each root's descendant
forest, then place every never-visited run into its own singleton sequence. -/
def assign_sequences (runs : List RunRecord) : List (List RunRecord) :=
  let st := (roots_of runs).foldl (assign_step runs) ([], 0, [])
  let orphans := runs.filter (fun r => !st.1.contains r.run_id)
  st.2.2 ++ orphans.mapIdx (fun i r =>
    [{ r with sequence_id := some (seq_label r (st.2.1 + i + 1)), sequence_index := some 1 }])

/-! ### Specification of the BFS loop -/

theorem mem_children_of_mem_runs {runs : List RunRecord} {pid : String} {x : RunRecord}
    (h : x ∈ children_of runs pid) : x ∈ runs := by
  unfold children_of at h
  have := (pySort_perm keyLe _).mem_iff.mp h
  exact (List.mem_filter.mp this).1

theorem bfsAux_spec (runs : List RunRecord) :
    ∀ (fuel : Nat) (queue : List RunRecord) (visited : List String) (acc : List RunRecord),
    queue.length + bfs_weight runs visited ≤ fuel →
    (∀ x ∈ queue, x ∈ runs) →
    ∃ new : List RunRecord,
      bfsAux runs fuel queue visited acc =
        ((new.map RunRecord.run_id).reverse ++ visited, acc ++ new) ∧
      (∀ x ∈ new, x ∈ runs) ∧ (new.map RunRecord.run_id).Nodup ∧
      (∀ i ∈ new.map RunRecord.run_id, visited.contains i = false)
  | 0, queue, visited, acc, hfuel, _ => by
    have hq0 : queue = [] := by
      cases queue with
      | nil => rfl
      | cons a l => simp only [List.length_cons] at hfuel; omega
    subst hq0
    exact ⟨[], by simp [bfsAux], by simp, by simp, by simp⟩
  | fuel + 1, [], visited, acc, _, _ => ⟨[], by simp [bfsAux], by simp, by simp, by simp⟩
  | fuel + 1, q :: queue, visited, acc, hfuel, hq => by
    rw [List.length_cons] at hfuel
    by_cases hv : visited.contains q.run_id = true
    · obtain ⟨new, h1, h2, h3, h4⟩ :=
        bfsAux_spec runs fuel queue visited acc (by omega)
          (fun x hx => hq x (List.mem_cons_of_mem q hx))
      refine ⟨new, ?_, h2, h3, h4⟩
      rw [bfsAux, if_pos hv]
      exact h1
    · have hfalse : visited.contains q.run_id = false := by
        cases hb : visited.contains q.run_id
        · rfl
        · exact absurd hb hv
      have hq' : ∀ x ∈ queue ++ children_of runs q.run_id, x ∈ runs := by
        intro x hx
        rcases List.mem_append.mp hx with hx | hx
        · exact hq x (List.mem_cons_of_mem q hx)
        · exact mem_children_of_mem_runs hx
      have hfuel' : (queue ++ children_of runs q.run_id).length +
          bfs_weight runs (q.run_id :: visited) ≤ fuel := by
        rw [List.length_append]
        rcases hc : (children_of runs q.run_id).length with _ | n
        · have := bfs_weight_mono runs visited q.run_id
          omega
        · have hne : children_of runs q.run_id ≠ [] := by
            intro he
            rw [he] at hc
            simp at hc
          have hfilt : runs.filter (fun r => parent_link runs r == some q.run_id) ≠ [] := by
            intro he
            unfold children_of at hne
            rw [he] at hne
            simp [pySort] at hne
          obtain ⟨r1, hr1⟩ := List.exists_mem_of_ne_nil _ hfilt
          have hr1' := List.mem_filter.mp hr1
          have hres := parent_link_resolvable (beq_iff_eq.mp hr1'.2)
          obtain ⟨r0, hr0, hid⟩ := id_resolvable_exists hres
          have hdrop := bfs_weight_drop runs visited q.run_id r0 hr0 hid hfalse
          omega
      obtain ⟨new, h1, h2, h3, h4⟩ :=
        bfsAux_spec runs fuel (queue ++ children_of runs q.run_id) (q.run_id :: visited)
          (acc ++ [q]) hfuel' hq'
      refine ⟨q :: new, ?_, ?_, ?_, ?_⟩
      · rw [bfsAux, if_neg hv, h1]
        simp
      · intro x hx
        rcases List.mem_cons.mp hx with rfl | hx
        · exact hq x (List.mem_cons_self x queue)
        · exact h2 x hx
      · rw [List.map_cons, List.nodup_cons]
        refine ⟨fun hmem => ?_, h3⟩
        have := h4 _ hmem
        rw [List.contains_cons] at this
        simp at this
      · intro i hi
        rw [List.map_cons] at hi
        rcases List.mem_cons.mp hi with h | hi'
        · subst h
          exact hfalse
        · have hfresh := h4 _ hi'
          rw [List.contains_cons] at hfresh
          cases hb : visited.contains i
          · rfl
          · rw [hb] at hfresh
            simp at hfresh

theorem bfs_spec (runs : List RunRecord) (queue : List RunRecord) (visited : List String)
    (acc : List RunRecord) (hq : ∀ x ∈ queue, x ∈ runs) :
    ∃ new : List RunRecord,
      bfs runs queue visited acc = ((new.map RunRecord.run_id).reverse ++ visited, acc ++ new) ∧
      (∀ x ∈ new, x ∈ runs) ∧ (new.map RunRecord.run_id).Nodup ∧
      (∀ i ∈ new.map RunRecord.run_id, visited.contains i = false) :=
  bfsAux_spec runs _ queue visited acc (Nat.le_refl _) hq

/-! ### Structure of annotated sequences -/

theorem run_id_annotate (sid : String) (m : List RunRecord) :
    (annotate_seq sid m).map RunRecord.run_id = m.map RunRecord.run_id := by
  apply List.ext_getElem
  · simp [annotate_seq]
  · intro i h1 h2
    simp [annotate_seq, List.getElem_mapIdx]

theorem annotate_sid (sid : String) (m : List RunRecord) :
    ∀ x ∈ annotate_seq sid m, x.sequence_id = some sid := by
  intro x hx
  obtain ⟨i, hi, rfl⟩ := List.mem_mapIdx.mp hx
  rfl

theorem annotate_index (sid : String) (m : List RunRecord) (i : Nat)
    (h : i < (annotate_seq sid m).length) :
    ((annotate_seq sid m).get ⟨i, h⟩).sequence_index = some (i + 1) := by
  simp [annotate_seq, List.get_eq_getElem, List.getElem_mapIdx]

theorem pairwise_keyLe_mapIdx :
    ∀ (f : Nat → RunRecord → RunRecord), (∀ i r, runKey (f i r) = runKey r) →
    ∀ (m : List RunRecord), m.Pairwise (fun a b => keyLe a b = true) →
    (m.mapIdx f).Pairwise (fun a b => keyLe a b = true)
  | _, _, [], _ => by simp
  | f, hf, a :: m, h => by
    rw [List.mapIdx_cons, List.pairwise_cons]
    rw [List.pairwise_cons] at h
    refine ⟨?_, pairwise_keyLe_mapIdx _ (fun i r => hf _ _) m h.2⟩
    intro y hy
    obtain ⟨i, hi, rfl⟩ := List.mem_mapIdx.mp hy
    show pairLe (runKey (f 0 a)) (runKey (f (i + 1) _)) = true
    rw [hf, hf]
    exact h.1 _ (List.getElem_mem hi)

theorem annotate_pairwise (sid : String) (m : List RunRecord)
    (h : m.Pairwise (fun a b => keyLe a b = true)) :
    (annotate_seq sid m).Pairwise (fun a b => keyLe a b = true) := by
  unfold annotate_seq
  exact pairwise_keyLe_mapIdx
    (fun i r => { r with sequence_id := some sid, sequence_index := some (i + 1) })
    (fun _ _ => rfl) m h

/-- All run ids appearing across a list of sequences, in order. -/
def seq_ids (seqs : List (List RunRecord)) : List String :=
  (seqs.map (fun s => s.map RunRecord.run_id)).flatten

theorem seq_ids_append (a b : List (List RunRecord)) :
    seq_ids (a ++ b) = seq_ids a ++ seq_ids b := by
  simp [seq_ids]

theorem seq_ids_singletons :
    ∀ (f : Nat → RunRecord → List RunRecord),
      (∀ i r, (f i r).map RunRecord.run_id = [r.run_id]) →
    ∀ (l : List RunRecord), seq_ids (l.mapIdx f) = l.map RunRecord.run_id
  | _, _, [] => by simp [seq_ids]
  | f, hf, a :: l => by
    rw [List.mapIdx_cons]
    simp only [seq_ids, List.map_cons, List.flatten_cons]
    rw [hf, List.singleton_append]
    exact congrArg (a.run_id :: ·) (seq_ids_singletons (fun i => f (i + 1)) (fun i r => hf _ _) l)

/-- Invariant of the root-traversal loop: `visited` holds exactly the ids
already placed into sequences, those ids are distinct, come from loaded runs,
and every emitted sequence is an annotated sort of its collected members. -/
def AssignInv (runs : List RunRecord) (st : List String × Nat × List (List RunRecord)) : Prop :=
  (∀ i : String, st.1.contains i = true ↔ i ∈ seq_ids st.2.2) ∧
  (seq_ids st.2.2).Nodup ∧
  (∀ i ∈ seq_ids st.2.2, ∃ r ∈ runs, r.run_id = i) ∧
  (∀ s ∈ st.2.2, ∃ sid : String, ∃ l : List RunRecord, s = annotate_seq sid (pySort keyLe l))

theorem assign_step_inv (runs : List RunRecord) (st : List String × Nat × List (List RunRecord))
    (root : RunRecord) (hr : root ∈ runs) (hinv : AssignInv runs st) :
    AssignInv runs (assign_step runs st root) := by
  unfold assign_step
  by_cases hc : st.1.contains root.run_id = true
  · rw [if_pos hc]
    exact hinv
  · rw [if_neg hc]
    obtain ⟨new, h1, h2, h3, h4⟩ := bfs_spec runs [root] st.1 []
      (by intro x hx; rw [List.mem_singleton] at hx; exact hx ▸ hr)
    rw [h1]
    simp only [List.nil_append]
    obtain ⟨hv, hn, hs, hg⟩ := hinv
    have hids : ((annotate_seq (seq_label root (st.2.1 + 1)) (pySort keyLe new)).map
        RunRecord.run_id).Perm (new.map RunRecord.run_id) := by
      rw [run_id_annotate]
      exact (pySort_perm keyLe new).map RunRecord.run_id
    have hseq : seq_ids (st.2.2 ++ [annotate_seq (seq_label root (st.2.1 + 1))
        (pySort keyLe new)]) = seq_ids st.2.2 ++
        (annotate_seq (seq_label root (st.2.1 + 1)) (pySort keyLe new)).map
          RunRecord.run_id := by
      rw [seq_ids_append]
      simp [seq_ids]
    refine ⟨?_, ?_, ?_, ?_⟩
    · intro i
      rw [hseq, List.mem_append]
      constructor
      · intro hcon
        rcases List.mem_append.mp (List.elem_iff.mp hcon) with hm | hm
        · rw [List.mem_reverse] at hm
          exact Or.inr (hids.mem_iff.mpr hm)
        · exact Or.inl ((hv i).mp (List.elem_iff.mpr hm))
      · intro hcase
        apply List.elem_iff.mpr
        rw [List.mem_append, List.mem_reverse]
        rcases hcase with hm | hm
        · exact Or.inr (List.elem_iff.mp ((hv i).mpr hm))
        · exact Or.inl (hids.mem_iff.mp hm)
    · rw [hseq, List.nodup_append]
      refine ⟨hn, hids.nodup_iff.mpr h3, ?_⟩
      intro i hi hi2
      have hcon : st.1.contains i = true := (hv i).mpr hi
      have := h4 i (hids.mem_iff.mp hi2)
      rw [this] at hcon
      exact Bool.false_ne_true hcon
    · intro i hi
      rw [hseq, List.mem_append] at hi
      rcases hi with hi | hi
      · exact hs i hi
      · have := hids.mem_iff.mp hi
        obtain ⟨r, hmem, hrid⟩ := List.mem_map.mp this
        exact ⟨r, h2 r hmem, hrid⟩
    · intro s hsmem
      rcases List.mem_append.mp hsmem with hsm | hsm
      · exact hg s hsm
      · rw [List.mem_singleton] at hsm
        exact ⟨seq_label root (st.2.1 + 1), new, hsm⟩

theorem assign_fold_inv (runs : List RunRecord) :
    ∀ (roots : List RunRecord) (st : List String × Nat × List (List RunRecord)),
      (∀ x ∈ roots, x ∈ runs) → AssignInv runs st →
      AssignInv runs (roots.foldl (assign_step runs) st)
  | [], _, _, hinv => hinv
  | root :: roots, st, hsub, hinv => by
    rw [List.foldl_cons]
    exact assign_fold_inv runs roots _ (fun x hx => hsub x (List.mem_cons_of_mem _ hx))
      (assign_step_inv runs st root (hsub root (List.mem_cons_self _ _)) hinv)

theorem roots_of_sub (runs : List RunRecord) : ∀ x ∈ roots_of runs, x ∈ runs := by
  intro x hx
  unfold roots_of at hx
  have := (pySort_perm keyLe _).mem_iff.mp hx
  exact (List.mem_filter.mp this).1

theorem assign_inv_init (runs : List RunRecord) : AssignInv runs ([], 0, []) := by
  refine ⟨?_, ?_, ?_, ?_⟩ <;> simp [seq_ids]

/-- C2: the returned sequences partition the loaded runs — every run id
appears exactly once across all sequences (stated as a permutation of the id
lists); within each sequence all members share one sequence id, the
`sequence_index` values are exactly `1..length`, and members are arranged in
increasing `(timestamp, run_id)` order.  No assumption is made on
`parent_run_id` values (dangling references, self-references and cycles are
all allowed), and `assign_sequences` is a total function, so the procedure
terminates. -/
theorem C2_sequence_partition (runs : List RunRecord)
    (hnd : (runs.map RunRecord.run_id).Nodup) :
    (seq_ids (assign_sequences runs)).Perm (runs.map RunRecord.run_id) ∧
    (∀ s ∈ assign_sequences runs,
      (∃ sid : String, ∀ x ∈ s, x.sequence_id = some sid) ∧
      (∀ i (hi : i < s.length), (s.get ⟨i, hi⟩).sequence_index = some (i + 1)) ∧
      s.Pairwise (fun a b => keyLe a b = true)) := by
  obtain ⟨hv, hn, hs, hg⟩ := assign_fold_inv runs (roots_of runs) ([], 0, [])
    (roots_of_sub runs) (assign_inv_init runs)
  have hrepr : assign_sequences runs =
      ((roots_of runs).foldl (assign_step runs) ([], 0, [])).2.2 ++
        (runs.filter (fun r =>
          !((roots_of runs).foldl (assign_step runs) ([], 0, [])).1.contains r.run_id)).mapIdx
          (fun i r => [{ r with
            sequence_id := some (seq_label r
              (((roots_of runs).foldl (assign_step runs) ([], 0, [])).2.1 + i + 1)),
            sequence_index := some 1 }]) := rfl
  refine ⟨?_, ?_⟩
  · rw [hrepr]
    rw [seq_ids_append, seq_ids_singletons
      (fun i r => [{ r with
        sequence_id := some (seq_label r
          (((roots_of runs).foldl (assign_step runs) ([], 0, [])).2.1 + i + 1)),
        sequence_index := some 1 }])
      (fun _ _ => rfl)]
    refine (List.perm_ext_iff_of_nodup ?_ hnd).mpr ?_
    · rw [List.nodup_append]
      refine ⟨hn, ((List.filter_sublist runs).map RunRecord.run_id).nodup hnd, ?_⟩
      intro i hi hi2
      obtain ⟨r, hr, hrid⟩ := List.mem_map.mp hi2
      have hfil := List.mem_filter.mp hr
      have hcon : ((roots_of runs).foldl (assign_step runs) ([], 0, [])).1.contains i = true :=
        (hv i).mpr hi
      rw [← hrid] at hcon
      rw [hcon] at hfil
      simp at hfil
    · intro a
      rw [List.mem_append]
      constructor
      · rintro (ha | ha)
        · obtain ⟨r, hr, hrid⟩ := hs a ha
          exact List.mem_map.mpr ⟨r, hr, hrid⟩
        · obtain ⟨r, hr, hrid⟩ := List.mem_map.mp ha
          exact List.mem_map.mpr ⟨r, (List.mem_filter.mp hr).1, hrid⟩
      · intro ha
        obtain ⟨r, hr, hrid⟩ := List.mem_map.mp ha
        by_cases hc : ((roots_of runs).foldl (assign_step runs) ([], 0, [])).1.contains a = true
        · exact Or.inl ((hv a).mp hc)
        · refine Or.inr (List.mem_map.mpr ⟨r, List.mem_filter.mpr ⟨hr, ?_⟩, hrid⟩)
          rw [hrid]
          cases hb : ((roots_of runs).foldl (assign_step runs) ([], 0, [])).1.contains a
          · rfl
          · exact absurd hb hc
  · intro s hsm
    rw [hrepr] at hsm
    rcases List.mem_append.mp hsm with hsm' | hsm'
    · obtain ⟨sid, l, rfl⟩ := hg s hsm'
      exact ⟨⟨sid, annotate_sid _ _⟩, fun i hi => annotate_index _ _ i hi,
        annotate_pairwise _ _ (pySort_sorted keyLe keyLe_trans keyLe_total l)⟩
    · obtain ⟨i, hi, rfl⟩ := List.mem_mapIdx.mp hsm'
      refine ⟨⟨seq_label ((runs.filter (fun r =>
          !((roots_of runs).foldl (assign_step runs) ([], 0, [])).1.contains r.run_id)).get ⟨i, hi⟩)
          (((roots_of runs).foldl (assign_step runs) ([], 0, [])).2.1 + i + 1),
          fun x hx => ?_⟩, ?_, ?_⟩
      · rw [List.mem_singleton] at hx
        subst hx
        rfl
      · intro j hj
        have hj0 : j = 0 := by
          simp only [List.length_singleton] at hj
          omega
        subst hj0
        rfl
      · simp

/-- Concrete instance for C2: a dangling parent reference, a self-cycle and a
well-formed root all end up in exactly one sequence. -/
def cX : RunRecord := { mkRun "run_x" "t1" none none none none with parent_run_id := some "ghost" }

def cY : RunRecord := { mkRun "run_y" "t2" none none none none with parent_run_id := some "run_y" }

def cZ : RunRecord := mkRun "run_z" "t3" none none none none

theorem C2_sequence_partition_witness :
    (seq_ids (assign_sequences [cX, cY, cZ])).Perm ([cX, cY, cZ].map RunRecord.run_id) ∧
    (∀ s ∈ assign_sequences [cX, cY, cZ],
      (∃ sid : String, ∀ x ∈ s, x.sequence_id = some sid) ∧
      (∀ i (hi : i < s.length), (s.get ⟨i, hi⟩).sequence_index = some (i + 1)) ∧
      s.Pairwise (fun a b => keyLe a b = true)) :=
  C2_sequence_partition [cX, cY, cZ] (by decide)

/-! ## Python rounding and text normalisation

`round(x, d)` in CPython is round-half-to-even at `d` decimal digits; we model
it exactly on rationals (the binary-float representation error of Python
floats is outside the scope of this model). -/

def pyRound (q : ℚ) (d : Nat) : ℚ :=
  let s : ℚ := (10 : ℚ) ^ d
  let x := q * s
  let f : ℤ := ⌊x⌋
  let frac := x - f
  let n : ℤ :=
    if frac < 1/2 then f
    else if 1/2 < frac then f + 1
    else if f % 2 = 0 then f else f + 1
  (n : ℚ) / s

def round4 (q : ℚ) : ℚ := pyRound q 4

def round1 (q : ℚ) : ℚ := pyRound q 1

/-- ASCII whitespace stripped by `str.strip` / `str.rstrip` (the model
restricts Python's unicode whitespace to its ASCII subset). -/
def pyIsSpace (c : Char) : Bool :=
  c == ' ' || c == '\t' || c == '\n' || c == '\r' || c == '\x0b' || c == '\x0c'

/-- `text.replace("\r\n", "\n")`: leftmost, non-overlapping. -/
def replaceCRLF : List Char → List Char
  | '\r' :: '\n' :: rest => '\n' :: replaceCRLF rest
  | c :: rest => c :: replaceCRLF rest
  | [] => []

/-- `text.replace("\r", "\n")`. -/
def replaceCR (l : List Char) : List Char :=
  l.map (fun c => if c = '\r' then '\n' else c)

/-- `text.split("\n")` (with its Python semantics: `"".split("\n") == [""]`,
a trailing separator yields a trailing empty field). -/
def splitNL : List Char → List (List Char)
  | [] => [[]]
  | '\n' :: rest => [] :: splitNL rest
  | c :: rest =>
    match splitNL rest with
    | [] => [[c]]
    | l :: ls => (c :: l) :: ls

/-- `line.rstrip()`. -/
def rstripC (l : List Char) : List Char := (l.reverse.dropWhile pyIsSpace).reverse

/-- `text.strip()`. -/
def stripC (l : List Char) : List Char :=
  ((l.dropWhile pyIsSpace).reverse.dropWhile pyIsSpace).reverse

/-- `"\n".join(lines)`. -/
def joinNL : List (List Char) → List Char
  | [] => []
  | [l] => l
  | l :: ls => l ++ '\n' :: joinNL ls

/-- `_normalize_text` (lines 80-81): unify line endings, strip trailing
whitespace per line, strip the whole text. -/
def normalize_text (text : String) : String :=
  String.mk (stripC (joinNL ((splitNL (replaceCR (replaceCRLF text.data))).map rstripC)))

/-! ## `difflib.SequenceMatcher(None, a, b).ratio()`

`_doc_similarity` delegates to the standard library's Ratcliff-Obershelp
matcher over the two normalised strings — i.e. over their *character*
sequences.  With `isjunk=None` the junk set `bjunk` is empty, so the two
junk-extension loops of `find_longest_match` never fire and are omitted; the
two non-junk extension loops are kept (they matter when `autojunk` has
dropped popular elements from `b2j`).  `b2j` maps an element to its positions
in `b` (in increasing order); when `len(b) >= 200` elements occurring more
than `len(b) // 100 + 1` times are dropped. -/

def b2j (b : List Char) (c : Char) : List Nat :=
  let idxs := (List.range b.length).filter (fun i => b.getD i ' ' == c)
  if 200 ≤ b.length ∧ b.length / 100 + 1 < idxs.length then [] else idxs

/-- The inner `for j in b2j.get(a[i], [])` loop of `find_longest_match`:
`j < blo` is `continue`, `j >= bhi` is `break`; `newj2len[j] = j2len.get(j-1, 0) + 1`
(with `j2len.get(-1, 0) = 0` for `j = 0`), and the best block becomes
`(i-k+1, j-k+1, k)` whenever `k` beats it.  `j2len` dicts are modelled as
total functions defaulting to `0`. -/
def innerLoop (j2lenOld : Nat → Nat) (i blo bhi : Nat) :
    List Nat → (Nat → Nat) → Nat × Nat × Nat → (Nat → Nat) × (Nat × Nat × Nat)
  | [], newj2len, best => (newj2len, best)
  | j :: js, newj2len, best =>
    if j < blo then innerLoop j2lenOld i blo bhi js newj2len best
    else if bhi ≤ j then (newj2len, best)
    else
      let k := (if j = 0 then 0 else j2lenOld (j - 1)) + 1
      let newj2len' := fun x => if x = j then k else newj2len x
      let best' := if best.2.2 < k then (i + 1 - k, j + 1 - k, k) else best
      innerLoop j2lenOld i blo bhi js newj2len' best'

/-- The outer `for i in range(alo, ahi)` loop of `find_longest_match`. -/
def flmRows (a b : List Char) (blo bhi : Nat) :
    List Nat → (Nat → Nat) → Nat × Nat × Nat → Nat × Nat × Nat
  | [], _, best => best
  | i :: is, j2len, best =>
    let res := innerLoop j2len i blo bhi (b2j b (a.getD i ' ')) (fun _ => 0) best
    flmRows a b blo bhi is res.1 res.2

/-- First extension loop (`while besti > alo and bestj > blo and ... a[besti-1] == b[bestj-1]`):
grow the best block downwards over equal elements.  The loop decrements
`besti` every iteration and stops no later than `besti = alo ≤ besti₀`, so a
fuel of `besti₀` steps is exact: when the fuel hits 0, `besti ≤ alo` and the
guard is false anyway. -/
def extendLowerAux (a b : List Char) (alo blo : Nat) :
    Nat → Nat × Nat × Nat → Nat × Nat × Nat
  | 0, t => t
  | fuel + 1, (besti, bestj, bestsize) =>
    if alo < besti ∧ blo < bestj ∧ a.getD (besti - 1) ' ' == b.getD (bestj - 1) ' '
    then extendLowerAux a b alo blo fuel (besti - 1, bestj - 1, bestsize + 1)
    else (besti, bestj, bestsize)

def extendLower (a b : List Char) (alo blo : Nat) (t : Nat × Nat × Nat) : Nat × Nat × Nat :=
  extendLowerAux a b alo blo t.1 t

/-- Second extension loop: grow the best block upwards.  Each iteration
increments `bestsize` while `besti + bestsize < ahi`, so a fuel of
`ahi - (besti₀ + bestsize₀)` steps is exact. -/
def extendUpperAux (a b : List Char) (ahi bhi : Nat) :
    Nat → Nat × Nat × Nat → Nat × Nat × Nat
  | 0, t => t
  | fuel + 1, (besti, bestj, bestsize) =>
    if besti + bestsize < ahi ∧ bestj + bestsize < bhi ∧
        a.getD (besti + bestsize) ' ' == b.getD (bestj + bestsize) ' '
    then extendUpperAux a b ahi bhi fuel (besti, bestj, bestsize + 1)
    else (besti, bestj, bestsize)

def extendUpper (a b : List Char) (ahi bhi : Nat) (t : Nat × Nat × Nat) : Nat × Nat × Nat :=
  extendUpperAux a b ahi bhi (ahi - (t.1 + t.2.2)) t

/-- `SequenceMatcher.find_longest_match(alo, ahi, blo, bhi)` with empty junk.
The model writes Python's `i-k+1` as `i + 1 - k` in `ℕ`; the two agree
because a matching run of length `k` ending at row `i` satisfies `k ≤ i+1`. -/
def find_longest_match (a b : List Char) (alo ahi blo bhi : Nat) : Nat × Nat × Nat :=
  extendUpper a b ahi bhi (extendLower a b alo blo
    (flmRows a b blo bhi (List.range' alo (ahi - alo)) (fun _ => 0) (alo, blo, 0)))

/-- Total matched elements over `get_matching_blocks`' recursion: the queue
traversal order never affects the sum, so it is written as a recursion on the
two remaining intervals.  Each recursive call strictly shrinks
`(ahi - alo) + (bhi - blo)` (see `find_longest_match_bounds`), so that much
fuel is exact (`matchesTotal_unfold` below). -/
def matchesTotalAux (a b : List Char) : Nat → Nat → Nat → Nat → Nat → Nat
  | 0, _, _, _, _ => 0
  | fuel + 1, alo, ahi, blo, bhi =>
    let t := find_longest_match a b alo ahi blo bhi
    if t.2.2 = 0 then 0
    else t.2.2 +
      (if alo < t.1 ∧ blo < t.2.1 then matchesTotalAux a b fuel alo t.1 blo t.2.1 else 0) +
      (if t.1 + t.2.2 < ahi ∧ t.2.1 + t.2.2 < bhi
        then matchesTotalAux a b fuel (t.1 + t.2.2) ahi (t.2.1 + t.2.2) bhi else 0)

def matchesTotal (a b : List Char) (alo ahi blo bhi : Nat) : Nat :=
  matchesTotalAux a b ((ahi - alo) + (bhi - blo)) alo ahi blo bhi

/-- `difflib._calculate_ratio(matches, length)`. -/
def calculate_ratio (ms length : Nat) : ℚ :=
  if length ≠ 0 then 2 * (ms : ℚ) / (length : ℚ) else 1

/-- `SequenceMatcher(None, a, b).ratio()`. -/
def sm_ratio (a b : List Char) : ℚ :=
  calculate_ratio (matchesTotal a b 0 a.length 0 b.length) (a.length + b.length)

/-- `_doc_similarity` (lines 254-257). -/
def doc_similarity (a b : String) : Option ℚ :=
  if a = "" || b = "" then none
  else some (round4 (sm_ratio (normalize_text a).data (normalize_text b).data))

/-! ## Per-run metrics (`compute_run_metrics`, lines 260-347) -/

/-- `_clamp` (lines 246-247). -/
def clamp (value low high : ℚ) : ℚ := max low (min high value)

/-- `_remap_minus1_to_1_to_0_to_1` (lines 250-251). -/
def remap_unit (value : ℚ) : ℚ := (value + 1) / 2

/-- `by_id = {r.run_id: r for r in runs}`: on duplicate ids the last entry
wins, so the lookup is a backwards search. -/
def by_id (runs : List RunRecord) (i : String) : Option RunRecord :=
  runs.reverse.find? (fun r => r.run_id == i)

/-- `parent = by_id.get(run.parent_run_id) if run.parent_run_id else None`. -/
def resolve_parent (runs : List RunRecord) (r : RunRecord) : Option RunRecord :=
  match r.parent_run_id with
  | none => none
  | some pid => if pid = "" then none else by_id runs pid

/-- The per-run metrics row (the dict built at lines 318-346).
`qa_issue_sections` keeps the set; the JSON layer sorts it for display. -/
structure RunMetric where
  run_id : String
  output_dir : String
  timestamp : String
  sequence_id : Option String
  sequence_index : Option Nat
  parent_run_id : Option String
  qa_status : Option String
  qa_issue_count : Option Nat
  qa_issue_sections : Finset String
  required_sections_total : Nat
  required_sections_completed : Nat
  required_sections_completion_pct : ℚ
  section_artifacts_total : Nat
  section_artifacts_present : Nat
  section_artifacts_valid : Nat
  section_artifacts_completion_pct : ℚ
  resolved_issues_vs_parent : Option Nat
  introduced_issues_vs_parent : Option Nat
  unchanged_issues_vs_parent : Option Nat
  issue_jaccard_vs_parent : Option ℚ
  doc_similarity_vs_parent : Option ℚ
  completion_delta_pct_vs_parent : Option ℚ
  qa_issue_delta_vs_parent : Option Int
  convergence_score : Option ℚ
  convergence_label : String
deriving DecidableEq

/-- One iteration of the `for run in runs` loop of `compute_run_metrics`
(lines 263-346). -/
def compute_run_metrics_one (runs : List RunRecord) (convergence_threshold : ℚ)
    (run : RunRecord) : RunMetric :=
  match resolve_parent runs run with
  | none =>
    { run_id := run.run_id, output_dir := run.output_dir, timestamp := run.timestamp,
      sequence_id := run.sequence_id, sequence_index := run.sequence_index,
      parent_run_id := run.parent_run_id, qa_status := run.qa_status,
      qa_issue_count := run.qa_issue_count, qa_issue_sections := run.qa_issue_sections,
      required_sections_total := run.required_sections_total,
      required_sections_completed := run.required_sections_completed,
      required_sections_completion_pct := run.required_sections_completion_pct,
      section_artifacts_total := run.section_artifacts_total,
      section_artifacts_present := run.section_artifacts_present,
      section_artifacts_valid := run.section_artifacts_valid,
      section_artifacts_completion_pct := run.section_artifacts_completion_pct,
      resolved_issues_vs_parent := none, introduced_issues_vs_parent := none,
      unchanged_issues_vs_parent := none, issue_jaccard_vs_parent := none,
      doc_similarity_vs_parent := none, completion_delta_pct_vs_parent := none,
      qa_issue_delta_vs_parent := none, convergence_score := none,
      convergence_label := "baseline" }
  | some parent =>
    let parent_issues := parent.qa_issue_sections
    let current_issues := run.qa_issue_sections
    let resolved := (parent_issues \ current_issues).card
    let introduced := (current_issues \ parent_issues).card
    let unchanged := (parent_issues ∩ current_issues).card
    let union := (parent_issues ∪ current_issues).card
    let issue_jaccard := round4 (if union ≠ 0 then (unchanged : ℚ) / (union : ℚ) else 0)
    let similarity := doc_similarity parent.design_doc_text run.design_doc_text
    let completion_delta := round1
      (run.required_sections_completion_pct - parent.required_sections_completion_pct)
    let qa_issue_delta : Option Int :=
      match parent.qa_issue_count, run.qa_issue_count with
      | some pc, some rc => some ((pc : Int) - (rc : Int))
      | _, _ => none
    let quality_norm : ℚ :=
      match parent.qa_issue_count, run.qa_issue_count with
      | some pc, some rc =>
        remap_unit (clamp (((pc : ℚ) - (rc : ℚ)) / max (pc : ℚ) 1) (-1) 1)
      | _, _ => 0.5
    let completion_norm := remap_unit (clamp (completion_delta / 100) (-1) 1)
    let stability_score := match similarity with | some s => s | none => 0
    -- `introduced` is never `None` on this branch, so the guard
    -- `introduced is None or run.qa_issue_count is None` reduces to the count.
    let regression_penalty : ℚ :=
      match run.qa_issue_count with
      | none => 0.5
      | some rc => 1 - min ((introduced : ℚ) / max ((rc : ℚ) + (introduced : ℚ)) 1) 1
    let score := round4 (0.40 * quality_norm + 0.30 * completion_norm
      + 0.20 * stability_score + 0.10 * regression_penalty)
    let label := if convergence_threshold ≤ score then "converging"
      else if score < 0.45 then "regressing" else "mixed"
    { run_id := run.run_id, output_dir := run.output_dir, timestamp := run.timestamp,
      sequence_id := run.sequence_id, sequence_index := run.sequence_index,
      parent_run_id := run.parent_run_id, qa_status := run.qa_status,
      qa_issue_count := run.qa_issue_count, qa_issue_sections := run.qa_issue_sections,
      required_sections_total := run.required_sections_total,
      required_sections_completed := run.required_sections_completed,
      required_sections_completion_pct := run.required_sections_completion_pct,
      section_artifacts_total := run.section_artifacts_total,
      section_artifacts_present := run.section_artifacts_present,
      section_artifacts_valid := run.section_artifacts_valid,
      section_artifacts_completion_pct := run.section_artifacts_completion_pct,
      resolved_issues_vs_parent := some resolved,
      introduced_issues_vs_parent := some introduced,
      unchanged_issues_vs_parent := some unchanged,
      issue_jaccard_vs_parent := some issue_jaccard,
      doc_similarity_vs_parent := similarity,
      completion_delta_pct_vs_parent := some completion_delta,
      qa_issue_delta_vs_parent := qa_issue_delta,
      convergence_score := some score, convergence_label := label }

def compute_run_metrics (runs : List RunRecord) (convergence_threshold : ℚ) :
    List RunMetric :=
  runs.map (compute_run_metrics_one runs convergence_threshold)

/-! ### C4: the convergence-score formula, written as the claim words it -/

def quality_norm_spec (pc rc : Option Nat) : ℚ :=
  match pc, rc with
  | some pc, some rc => (clamp (((pc : ℚ) - (rc : ℚ)) / max (pc : ℚ) 1) (-1) 1 + 1) / 2
  | _, _ => 0.5

def completion_norm_spec (delta : ℚ) : ℚ := (clamp (delta / 100) (-1) 1 + 1) / 2

def stability_spec (sim : Option ℚ) : ℚ := sim.getD 0

def regression_penalty_spec (introduced : Nat) (rc : Option Nat) : ℚ :=
  match rc with
  | some rc => 1 - min ((introduced : ℚ) / max ((rc : ℚ) + (introduced : ℚ)) 1) 1
  | none => 0.5

theorem by_id_unique (runs : List RunRecord) (hnd : (runs.map RunRecord.run_id).Nodup)
    (p : RunRecord) (hp : p ∈ runs) (pid : String) (hid : p.run_id = pid) :
    by_id runs pid = some p := by
  unfold by_id
  have hsome : (runs.reverse.find? (fun r => r.run_id == pid)).isSome :=
    List.find?_isSome.mpr ⟨p, List.mem_reverse.mpr hp, by simp [hid]⟩
  obtain ⟨q, hq⟩ := Option.isSome_iff_exists.mp hsome
  have hqpred : q.run_id = pid := by simpa using List.find?_some hq
  have hqmem : q ∈ runs := List.mem_reverse.mp (List.mem_of_find?_eq_some hq)
  rw [hq, List.inj_on_of_nodup_map hnd hqmem hp (hqpred.trans hid.symm)]

/-- C4: when `parent_run_id` resolves to a loaded parent, the convergence
score is the 0.40/0.30/0.20/0.10-weighted sum of quality, completion,
stability and regression terms (each as described by the claim), rounded to 4
decimals, and the label follows the threshold chain
`converging (score ≥ threshold) / regressing (score < 0.45) / mixed`;
a run with no resolved parent is labelled `baseline` with no score. -/
theorem C4_convergence_formula (runs : List RunRecord) (θ : ℚ)
    (hnd : (runs.map RunRecord.run_id).Nodup)
    (r : RunRecord) (pid : String) (hpid : r.parent_run_id = some pid) (hne : pid ≠ "")
    (p : RunRecord) (hp : p ∈ runs) (hid : p.run_id = pid) :
    ((compute_run_metrics_one runs θ r).convergence_score =
      some (round4 (0.40 * quality_norm_spec p.qa_issue_count r.qa_issue_count
        + 0.30 * completion_norm_spec (round1 (r.required_sections_completion_pct
            - p.required_sections_completion_pct))
        + 0.20 * stability_spec (doc_similarity p.design_doc_text r.design_doc_text)
        + 0.10 * regression_penalty_spec ((r.qa_issue_sections \ p.qa_issue_sections).card)
            r.qa_issue_count)) ∧
      (compute_run_metrics_one runs θ r).convergence_label =
        (if θ ≤ round4 (0.40 * quality_norm_spec p.qa_issue_count r.qa_issue_count
            + 0.30 * completion_norm_spec (round1 (r.required_sections_completion_pct
                - p.required_sections_completion_pct))
            + 0.20 * stability_spec (doc_similarity p.design_doc_text r.design_doc_text)
            + 0.10 * regression_penalty_spec
                ((r.qa_issue_sections \ p.qa_issue_sections).card) r.qa_issue_count)
          then "converging"
          else if round4 (0.40 * quality_norm_spec p.qa_issue_count r.qa_issue_count
            + 0.30 * completion_norm_spec (round1 (r.required_sections_completion_pct
                - p.required_sections_completion_pct))
            + 0.20 * stability_spec (doc_similarity p.design_doc_text r.design_doc_text)
            + 0.10 * regression_penalty_spec
                ((r.qa_issue_sections \ p.qa_issue_sections).card) r.qa_issue_count) < 0.45
          then "regressing" else "mixed")) ∧
    (∀ r' : RunRecord, resolve_parent runs r' = none →
      (compute_run_metrics_one runs θ r').convergence_label = "baseline" ∧
      (compute_run_metrics_one runs θ r').convergence_score = none) := by
  have hres : resolve_parent runs r = some p := by
    simp only [resolve_parent, hpid, if_neg hne]
    exact by_id_unique runs hnd p hp pid hid
  constructor
  · rcases hpc : p.qa_issue_count with _ | pc <;>
      rcases hrc : r.qa_issue_count with _ | rc <;>
      rcases hsim : doc_similarity p.design_doc_text r.design_doc_text with _ | s <;>
      simp [compute_run_metrics_one, hres, hpc, hrc, hsim, quality_norm_spec,
        completion_norm_spec, stability_spec, regression_penalty_spec, remap_unit]
  · intro r' hres'
    constructor <;> simp [compute_run_metrics_one, hres']

/-- Concrete two-run chain exercising the C4 hypotheses. -/
def mP : RunRecord := { mkRun "run_p" "t1" (some "hP") none none none with
  qa_issue_count := some 3, qa_issue_sections := {"A", "B"} }

def mR : RunRecord := { mkRun "run_r" "t2" (some "hR") none (some "hP") none with
  qa_issue_count := some 1, qa_issue_sections := {"B"},
  parent_run_id := some "run_p" }

theorem C4_convergence_formula_witness :
    ((compute_run_metrics_one [mP, mR] 0.75 mR).convergence_score =
      some (round4 (0.40 * quality_norm_spec mP.qa_issue_count mR.qa_issue_count
        + 0.30 * completion_norm_spec (round1 (mR.required_sections_completion_pct
            - mP.required_sections_completion_pct))
        + 0.20 * stability_spec (doc_similarity mP.design_doc_text mR.design_doc_text)
        + 0.10 * regression_penalty_spec ((mR.qa_issue_sections \ mP.qa_issue_sections).card)
            mR.qa_issue_count)) ∧
      (compute_run_metrics_one [mP, mR] 0.75 mR).convergence_label =
        (if (0.75 : ℚ) ≤ round4 (0.40 * quality_norm_spec mP.qa_issue_count mR.qa_issue_count
            + 0.30 * completion_norm_spec (round1 (mR.required_sections_completion_pct
                - mP.required_sections_completion_pct))
            + 0.20 * stability_spec (doc_similarity mP.design_doc_text mR.design_doc_text)
            + 0.10 * regression_penalty_spec
                ((mR.qa_issue_sections \ mP.qa_issue_sections).card) mR.qa_issue_count)
          then "converging"
          else if round4 (0.40 * quality_norm_spec mP.qa_issue_count mR.qa_issue_count
            + 0.30 * completion_norm_spec (round1 (mR.required_sections_completion_pct
                - mP.required_sections_completion_pct))
            + 0.20 * stability_spec (doc_similarity mP.design_doc_text mR.design_doc_text)
            + 0.10 * regression_penalty_spec
                ((mR.qa_issue_sections \ mP.qa_issue_sections).card) mR.qa_issue_count) < 0.45
          then "regressing" else "mixed")) ∧
    (∀ r' : RunRecord, resolve_parent [mP, mR] r' = none →
      (compute_run_metrics_one [mP, mR] 0.75 r').convergence_label = "baseline" ∧
      (compute_run_metrics_one [mP, mR] 0.75 r').convergence_score = none) :=
  C4_convergence_formula [mP, mR] 0.75 (by decide) mR "run_p" rfl (by decide) mP
    (by decide) rfl

/-! ## Sequence summaries (`summarize_sequences`, lines 350-442) -/

/-- `_sign` (lines 350-355). -/
def sign (value : Int) : Int := if 0 < value then 1 else if value < 0 then -1 else 0

structure SequenceSummary where
  sequence_id : Option String
  run_ids : List String
  length : Nat
  start_timestamp : String
  end_timestamp : String
  final_qa_status : Option String
  best_qa_issue_count : Option Nat
  final_qa_issue_count : Option Nat
  best_completion_pct : ℚ
  final_completion_pct : ℚ
  oscillation_detected : Bool
  converged : Bool
  convergence_reason : String
deriving DecidableEq

/-- Placeholder standing in for Python's `KeyError` / `IndexError` on data
that the pipeline never produces (empty sequences, missing metric rows). -/
def default_metric : RunMetric :=
  { run_id := "", output_dir := "", timestamp := "", sequence_id := none,
    sequence_index := none, parent_run_id := none, qa_status := none,
    qa_issue_count := none, qa_issue_sections := ∅, required_sections_total := 0,
    required_sections_completed := 0, required_sections_completion_pct := 0,
    section_artifacts_total := 0, section_artifacts_present := 0,
    section_artifacts_valid := 0, section_artifacts_completion_pct := 0,
    resolved_issues_vs_parent := none, introduced_issues_vs_parent := none,
    unchanged_issues_vs_parent := none, issue_jaccard_vs_parent := none,
    doc_similarity_vs_parent := none, completion_delta_pct_vs_parent := none,
    qa_issue_delta_vs_parent := none, convergence_score := none,
    convergence_label := "" }

def default_run : RunRecord := mkRun "" "" none none none none

/-- Lines 375-383: consecutive issue-count deltas over the runs whose count
is known (`prev` is the previous known count). -/
def issue_deltas (prev : Option Nat) : List (Option Nat) → List Int
  | [] => []
  | none :: rest => issue_deltas prev rest
  | some c :: rest =>
    match prev with
    | none => issue_deltas (some c) rest
    | some pc => ((c : Int) - (pc : Int)) :: issue_deltas (some c) rest

/-- Lines 384-392: two consecutive nonzero delta signs that disagree flag the
sequence as oscillating. -/
def oscillation_from (lastSign : Int) : List Int → Bool
  | [] => false
  | d :: rest =>
    let s := sign d
    if s = 0 then oscillation_from lastSign rest
    else if lastSign ≠ 0 ∧ s ≠ lastSign then true
    else oscillation_from s rest

/-- The `key=` tuple of the best-run `max` call (lines 415-423).
`m["required_sections_completion_pct"] or 0.0` maps `0.0` to `0.0`, i.e. it
is the identity on this never-`None` field. -/
def best_key (m : RunMetric) : Nat × Int × ℚ × String :=
  ((if m.qa_status == some "PASS" then 1 else 0),
   -(match m.qa_issue_count with | some c => (c : Int) | none => 10 ^ 9),
   m.required_sections_completion_pct,
   m.timestamp)

/-- Lexicographic `<` on the best-run key tuples. -/
def bkey_lt (x y : Nat × Int × ℚ × String) : Bool :=
  decide (x.1 < y.1) ||
    (x.1 == y.1 && (decide (x.2.1 < y.2.1) ||
      (x.2.1 == y.2.1 && (decide (x.2.2.1 < y.2.2.1) ||
        (x.2.2.1 == y.2.2.1 && strLt x.2.2.2 y.2.2.2)))))

/-- Python `max(xs, key=best_key)`: keeps the first of equal keys. -/
def max_by_key (ms : List RunMetric) (m0 : RunMetric) : RunMetric :=
  ms.foldl (fun best m => if bkey_lt (best_key best) (best_key m) then m else best) m0

/-- `metric_by_run = {m["run_id"]: m for m in run_metrics}` (last wins). -/
def metric_by_run (ms : List RunMetric) (i : String) : Option RunMetric :=
  ms.reverse.find? (fun m => m.run_id == i)

/-- The plateau test of lines 399-410: all four stability checks over the
window `metrics[-plateau_window:]` (modelled as `drop (length - W)`; the two
agree whenever `0 < W`, and the window is only read under the `W ≥ 2` guard). -/
def plateau_ok_bool (plateau_window : Nat) (metrics : List RunMetric) : Bool :=
  let tail := metrics.drop (metrics.length - plateau_window)
  let counts := tail.map (fun m => m.qa_issue_count)
  (counts.all (fun c => c.isSome && c == (counts.head?.getD none))) &&
  ((tail.drop 1).all (fun m =>
    m.introduced_issues_vs_parent == some 0 || m.introduced_issues_vs_parent == none)) &&
  ((tail.drop 1).all (fun m =>
    match m.doc_similarity_vs_parent with
    | some s => decide ((0.95 : ℚ) ≤ s)
    | none => false)) &&
  ((tail.drop 1).all (fun m =>
    match m.completion_delta_pct_vs_parent with
    | some d => decide (|d| ≤ (1.0 : ℚ))
    | none => false))

/-- Lines 394-413 as a value: `converged` is set by the PASS branch or by the
guarded plateau branch of the `if/elif` chain. -/
def converged_bool (plateau_window : Nat) (metrics : List RunMetric) : Bool :=
  ((metrics.getLast?.getD default_metric).qa_status == some "PASS") ||
    ((decide (plateau_window ≤ metrics.length) && decide (2 ≤ plateau_window)) &&
      plateau_ok_bool plateau_window metrics)

/-- The matching `reason` assignments of the same `if/elif` chain. -/
def reason_str (plateau_window : Nat) (metrics : List RunMetric) : String :=
  if (metrics.getLast?.getD default_metric).qa_status == some "PASS" then
    "Final run passed QA"
  else if (decide (plateau_window ≤ metrics.length) && decide (2 ≤ plateau_window)) &&
      plateau_ok_bool plateau_window metrics then
    "Stable plateau across recent runs"
  else "No PASS and no stable plateau with improvement"

/-- One iteration of the `for seq_runs in sequences` loop (lines 366-441). -/
def summarize_one (metricOf : String → RunMetric) (plateau_window : Nat)
    (seq_runs0 : List RunRecord) : SequenceSummary :=
  let seq_runs := pySort keyLe seq_runs0
  let ids := seq_runs.map (fun r => r.run_id)
  let metrics := seq_runs.map (fun r => metricOf r.run_id)
  let final := metrics.getLast?.getD default_metric
  let deltas := issue_deltas none (metrics.map (fun m => m.qa_issue_count))
  let oscillation := oscillation_from 0 deltas
  let best := match metrics with
    | [] => default_metric
    | m :: rest => max_by_key rest m
  { sequence_id := (seq_runs.head?.getD default_run).sequence_id,
    run_ids := ids,
    length := ids.length,
    start_timestamp := (seq_runs.head?.getD default_run).timestamp,
    end_timestamp := (seq_runs.getLast?.getD default_run).timestamp,
    final_qa_status := final.qa_status,
    best_qa_issue_count := best.qa_issue_count,
    final_qa_issue_count := final.qa_issue_count,
    best_completion_pct := best.required_sections_completion_pct,
    final_completion_pct := final.required_sections_completion_pct,
    oscillation_detected := oscillation,
    converged := converged_bool plateau_window metrics,
    convergence_reason := reason_str plateau_window metrics }

def summarize_sequences (sequences : List (List RunRecord)) (run_metrics : List RunMetric)
    (plateau_window : Nat) : List SequenceSummary :=
  sequences.map (summarize_one
    (fun i => (metric_by_run run_metrics i).getD default_metric) plateau_window)

/-! ### C7: the `4 → 6 → 5` oscillation scenario -/

/-- Three chained runs: each later run's `previous_design_doc_hash` is the
earlier run's own document hash, with issue counts 4, 6, 5. -/
def o1 : RunRecord := { mkRun "run_001" "t1" (some "d1") (some "r1") none none with
  qa_issue_count := some 4, qa_status := some "FAIL" }

def o2 : RunRecord := { mkRun "run_002" "t2" (some "d2") (some "r2") (some "d1") none with
  qa_issue_count := some 6, qa_status := some "FAIL" }

def o3 : RunRecord := { mkRun "run_003" "t3" (some "d3") (some "r3") (some "d2") none with
  qa_issue_count := some 5, qa_status := some "FAIL" }

/-- C7: on the `4 → 6 → 5` chain the pipeline reports parent links
`run_001 ← run_002 ← run_003`, `qa_issue_delta_vs_parent` of `-2` then `+1`,
one sequence with `oscillation_detected = true`, `best_qa_issue_count = 4`,
`final_qa_issue_count = 5` and `converged = false`. -/
theorem C7_oscillation_scenario :
    (reconstruct_lineage [o1, o2, o3]).map (fun r => r.parent_run_id) =
      [none, some "run_001", some "run_002"] ∧
    (compute_run_metrics (reconstruct_lineage [o1, o2, o3]) 0.75).map
      (fun m => m.qa_issue_delta_vs_parent) = [none, some (-2), some 1] ∧
    (summarize_sequences (assign_sequences (reconstruct_lineage [o1, o2, o3]))
      (compute_run_metrics (reconstruct_lineage [o1, o2, o3]) 0.75) 2).map
      (fun s => (s.oscillation_detected, s.best_qa_issue_count,
        s.final_qa_issue_count, s.converged)) = [(true, some 4, some 5, false)] := by
  refine ⟨by decide, by decide, by decide⟩

/-! ### C3: the convergence verdict -/

/-- The claim's plateau conditions over the last `W` metric rows:
(a) all tail rows share one known issue count, and for every row after the
first in the window (b) no positive introduced-issues delta (an absent delta
counts as zero), (c) a present parent-document similarity `≥ 0.95`,
(d) a present completion delta with `|δ| ≤ 1.0`. -/
def plateau_conditions (W : Nat) (metrics : List RunMetric) : Prop :=
  let tail := metrics.drop (metrics.length - W)
  (∃ c : Nat, ∀ m ∈ tail, m.qa_issue_count = some c) ∧
  (∀ m ∈ tail.drop 1, ∀ n : Nat, m.introduced_issues_vs_parent = some n → n = 0) ∧
  (∀ m ∈ tail.drop 1, ∃ s : ℚ, m.doc_similarity_vs_parent = some s ∧ (0.95 : ℚ) ≤ s) ∧
  (∀ m ∈ tail.drop 1, ∃ d : ℚ, m.completion_delta_pct_vs_parent = some d ∧ |d| ≤ (1.0 : ℚ))

theorem same_count_iff (l : List RunMetric) :
    ((l.map (fun m => m.qa_issue_count)).all
      (fun c => c.isSome && c == ((l.map (fun m => m.qa_issue_count)).head?.getD none)) = true)
    ↔ ∃ c : Nat, ∀ m ∈ l, m.qa_issue_count = some c := by
  cases l with
  | nil =>
    constructor
    · intro _
      exact ⟨0, by simp⟩
    · intro _
      simp
  | cons m0 rest =>
    simp only [List.map_cons, List.head?_cons, Option.getD_some, List.all_eq_true]
    constructor
    · intro h
      rcases hc : m0.qa_issue_count with _ | c
      · have h0 := h m0.qa_issue_count (by simp)
        rw [hc] at h0
        simp at h0
      · refine ⟨c, ?_⟩
        intro m hm
        have hx := h m.qa_issue_count (by
          rcases List.mem_cons.mp hm with rfl | hm'
          · simp
          · exact List.mem_cons_of_mem _ (List.mem_map.mpr ⟨m, hm', rfl⟩))
        rw [Bool.and_eq_true, beq_iff_eq] at hx
        rw [hx.2, hc]
    · rintro ⟨c, hc⟩ x hx
      rcases List.mem_cons.mp hx with rfl | hx'
      · rw [hc m0 (List.mem_cons_self _ _)]
        simp
      · obtain ⟨m, hm, rfl⟩ := List.mem_map.mp hx'
        rw [hc m (List.mem_cons_of_mem _ hm), hc m0 (List.mem_cons_self _ _)]
        simp

theorem no_new_issues_iff (l : List RunMetric) :
    (l.all (fun m => m.introduced_issues_vs_parent == some 0 ||
      m.introduced_issues_vs_parent == none) = true)
    ↔ ∀ m ∈ l, ∀ n : Nat, m.introduced_issues_vs_parent = some n → n = 0 := by
  rw [List.all_eq_true]
  constructor
  · intro h m hm n hn
    have hx := h m hm
    rw [hn] at hx
    simpa using hx
  · intro h m hm
    rcases hi : m.introduced_issues_vs_parent with _ | n
    · simp
    · have := h m hm n hi
      subst this
      simp

theorem stable_docs_iff (l : List RunMetric) :
    (l.all (fun m => match m.doc_similarity_vs_parent with
      | some s => decide ((0.95 : ℚ) ≤ s)
      | none => false) = true)
    ↔ ∀ m ∈ l, ∃ s : ℚ, m.doc_similarity_vs_parent = some s ∧ (0.95 : ℚ) ≤ s := by
  rw [List.all_eq_true]
  constructor
  · intro h m hm
    have hx := h m hm
    rcases hs : m.doc_similarity_vs_parent with _ | s
    · rw [hs] at hx
      simp at hx
    · rw [hs] at hx
      exact ⟨s, rfl, of_decide_eq_true hx⟩
  · intro h m hm
    obtain ⟨s, hs, hge⟩ := h m hm
    rw [hs]
    simpa using hge

theorem stable_completion_iff (l : List RunMetric) :
    (l.all (fun m => match m.completion_delta_pct_vs_parent with
      | some d => decide (|d| ≤ (1.0 : ℚ))
      | none => false) = true)
    ↔ ∀ m ∈ l, ∃ d : ℚ, m.completion_delta_pct_vs_parent = some d ∧ |d| ≤ (1.0 : ℚ) := by
  rw [List.all_eq_true]
  constructor
  · intro h m hm
    have hx := h m hm
    rcases hs : m.completion_delta_pct_vs_parent with _ | d
    · rw [hs] at hx
      simp at hx
    · rw [hs] at hx
      exact ⟨d, rfl, of_decide_eq_true hx⟩
  · intro h m hm
    obtain ⟨d, hs, hge⟩ := h m hm
    rw [hs]
    simpa using hge

theorem plateau_ok_iff (W : Nat) (metrics : List RunMetric) :
    plateau_ok_bool W metrics = true ↔ plateau_conditions W metrics := by
  unfold plateau_ok_bool plateau_conditions
  simp only [Bool.and_eq_true]
  rw [same_count_iff, no_new_issues_iff, stable_docs_iff, stable_completion_iff]
  tauto

/-- C3 (amended: the plateau branch additionally requires the configured
window `W ≥ 2`, a guard the code checks at line 399): for any sequence the
summary reports converged with the "final run passed" reason iff the final
(by `(timestamp, run_id)` order) run's review status is `PASS`; otherwise it
reports converged with the "stable plateau" reason iff `2 ≤ W`, the sequence
has at least `W` runs and the four plateau conditions hold; in every other
case converged is false with the no-pass reason. -/
theorem C3_convergence_verdict (metricOf : String → RunMetric) (W : Nat)
    (seq_runs : List RunRecord) :
    (((summarize_one metricOf W seq_runs).converged = true ∧
      (summarize_one metricOf W seq_runs).convergence_reason = "Final run passed QA") ↔
      ((((pySort keyLe seq_runs).map (fun r => metricOf r.run_id)).getLast?.getD
        default_metric).qa_status = some "PASS")) ∧
    (¬ ((((pySort keyLe seq_runs).map (fun r => metricOf r.run_id)).getLast?.getD
        default_metric).qa_status = some "PASS") →
      (((summarize_one metricOf W seq_runs).converged = true ∧
        (summarize_one metricOf W seq_runs).convergence_reason =
          "Stable plateau across recent runs") ↔
        (2 ≤ W ∧ W ≤ ((pySort keyLe seq_runs).map (fun r => metricOf r.run_id)).length ∧
          plateau_conditions W ((pySort keyLe seq_runs).map (fun r => metricOf r.run_id))))) ∧
    (¬ ((((pySort keyLe seq_runs).map (fun r => metricOf r.run_id)).getLast?.getD
        default_metric).qa_status = some "PASS") →
      ¬ (2 ≤ W ∧ W ≤ ((pySort keyLe seq_runs).map (fun r => metricOf r.run_id)).length ∧
          plateau_conditions W ((pySort keyLe seq_runs).map (fun r => metricOf r.run_id))) →
      (summarize_one metricOf W seq_runs).converged = false ∧
      (summarize_one metricOf W seq_runs).convergence_reason =
        "No PASS and no stable plateau with improvement") := by
  set M : List RunMetric := (pySort keyLe seq_runs).map (fun r => metricOf r.run_id) with hM
  have hc : (summarize_one metricOf W seq_runs).converged = converged_bool W M := rfl
  have hr : (summarize_one metricOf W seq_runs).convergence_reason = reason_str W M := rfl
  by_cases hpass : (M.getLast?.getD default_metric).qa_status = some "PASS"
  · have hbeq : ((M.getLast?.getD default_metric).qa_status == some "PASS") = true := by
      rw [hpass]
      simp
    refine ⟨⟨fun _ => hpass, fun _ => ⟨?_, ?_⟩⟩, fun hp => absurd hpass hp,
      fun hp => absurd hpass hp⟩
    · rw [hc]
      unfold converged_bool
      rw [hbeq, Bool.true_or]
    · rw [hr]
      unfold reason_str
      rw [if_pos hbeq]
  · have hbeq : ((M.getLast?.getD default_metric).qa_status == some "PASS") = false := by
      cases hb : ((M.getLast?.getD default_metric).qa_status == some "PASS")
      · rfl
      · exact absurd (beq_iff_eq.mp hb) hpass
    have hcf : (summarize_one metricOf W seq_runs).converged =
        ((decide (W ≤ M.length) && decide (2 ≤ W)) && plateau_ok_bool W M) := by
      rw [hc]
      unfold converged_bool
      rw [hbeq, Bool.false_or]
    have hrf : (summarize_one metricOf W seq_runs).convergence_reason =
        (if (decide (W ≤ M.length) && decide (2 ≤ W)) && plateau_ok_bool W M then
          "Stable plateau across recent runs"
        else "No PASS and no stable plateau with improvement") := by
      rw [hr]
      unfold reason_str
      rw [if_neg (by rw [hbeq]; exact Bool.false_ne_true)]
    have hbridge : ((decide (W ≤ M.length) && decide (2 ≤ W)) && plateau_ok_bool W M) = true ↔
        (2 ≤ W ∧ W ≤ M.length ∧ plateau_conditions W M) := by
      simp only [Bool.and_eq_true, decide_eq_true_eq]
      rw [plateau_ok_iff]
      tauto
    refine ⟨⟨?_, fun hp => absurd hp hpass⟩, fun _ => ⟨?_, ?_⟩, fun _ hnot => ⟨?_, ?_⟩⟩
    · rintro ⟨_, hreason⟩
      rw [hrf] at hreason
      by_cases hcond : ((decide (W ≤ M.length) && decide (2 ≤ W)) && plateau_ok_bool W M) = true
      · rw [if_pos hcond] at hreason
        exact absurd hreason (by decide)
      · rw [if_neg hcond] at hreason
        exact absurd hreason (by decide)
    · rintro ⟨hcv, _⟩
      rw [hcf] at hcv
      exact hbridge.mp hcv
    · rintro hrhs
      have hcond := hbridge.mpr hrhs
      exact ⟨by rw [hcf]; exact hcond, by rw [hrf, if_pos hcond]⟩
    · rw [hcf]
      cases hcond : ((decide (W ≤ M.length) && decide (2 ≤ W)) && plateau_ok_bool W M)
      · rfl
      · exact absurd (hbridge.mp hcond) hnot
    · rw [hrf, if_neg ?_]
      intro hcond
      exact hnot (hbridge.mp hcond)

/-- A one-run sequence whose run failed review with 5 issues. -/
def m5 : RunMetric := { default_metric with
  run_id := "f", timestamp := "t1", qa_status := some "FAIL", qa_issue_count := some 5 }

def rFail : RunRecord := mkRun "f" "t1" none none none none

/-- With a window of `W = 1` the sequence `[rFail]` has at least `W` runs, its
final run did not pass, and all four plateau conditions hold (the after-the-
first checks are vacuous over a 1-element window), yet the code reports
`converged = false`: the claim as stated (which evaluates the plateau branch
whenever the sequence has at least `W` runs) fails; the code additionally
requires `W ≥ 2`. -/
theorem C3_window_one_counterexample :
    (summarize_one (fun _ => m5) 1 [rFail]).converged = false ∧
    (summarize_one (fun _ => m5) 1 [rFail]).convergence_reason =
      "No PASS and no stable plateau with improvement" ∧
    ((((pySort keyLe [rFail]).map (fun r => (fun _ => m5) r.run_id)).getLast?.getD
      default_metric).qa_status ≠ some "PASS") ∧
    1 ≤ ((pySort keyLe [rFail]).map (fun r => (fun _ => m5) r.run_id)).length ∧
    plateau_conditions 1 ((pySort keyLe [rFail]).map (fun r => (fun _ => m5) r.run_id)) := by
  refine ⟨by decide, by decide, by decide, by decide, ⟨5, by decide⟩, ?_, ?_, ?_⟩
  · intro m hm
    exact absurd hm (List.not_mem_nil m)
  · intro m hm
    exact absurd hm (List.not_mem_nil m)
  · intro m hm
    exact absurd hm (List.not_mem_nil m)

/-! ## Artifact loading (`discover_runs` and helpers, lines 58-175)

SHA-256 itself is a standard-library primitive; it is modelled as an
abstract function `sha` of the file content (`_sha256_file` returns `None`
exactly for missing files, which the model expresses with `Option.map`). -/

/-- A JSON value, as decoded by `json.loads`. -/
inductive JVal where
  | jnull
  | jbool (b : Bool)
  | jnum (q : ℚ)
  | jstr (s : String)
  | jarr (xs : List JVal)
  | jobj (fields : List (String × JVal))

/-- A structured file on disk: absent, present but undecodable, or decoded. -/
inductive FileJson where
  | absent
  | invalid (raw : String)
  | val (raw : String) (j : JVal)

def exists_file : FileJson → Bool
  | .absent => false
  | .invalid _ => true
  | .val _ _ => true

/-- `_load_json` (lines 70-77): `None` for a missing file, a decode error, or
a non-dict document. -/
def load_json : FileJson → Option (List (String × JVal))
  | .absent => none
  | .invalid _ => none
  | .val _ (.jobj fields) => some fields
  | .val _ _ => none

/-- `dict.get` on a decoded JSON object (`json.loads` keeps the last
duplicate key). -/
def jget (fields : List (String × JVal)) (k : String) : Option JVal :=
  (fields.reverse.find? (fun kv => kv.1 == k)).map (fun kv => kv.2)

/-- `_parse_review_report` (lines 113-129): status, issue count, issue
sections and raw-content hash.  A total function: every failure mode maps to
a degraded value, none raises. -/
def parse_review_report (sha : String → String) (f : FileJson) :
    Option String × Option Nat × Finset String × Option String :=
  let raw_hash : Option String := match f with
    | .absent => none
    | .invalid raw => some (sha raw)
    | .val raw _ => some (sha raw)
  match load_json f with
  | none => ((if exists_file f then some "MISSING" else none), none, ∅, raw_hash)
  | some data =>
    let status := match jget data "status" with
      | some (.jstr s) => some s
      | _ => none
    let issues : List JVal := match jget data "issues" with
      | some (.jarr xs) => xs
      | _ => []
    let sections : Finset String := issues.foldl (fun acc issue =>
      match issue with
      | .jobj fs =>
        match jget fs "section" with
        | some (.jstr s) => insert s acc
        | _ => acc
      | _ => acc) ∅
    (status, some issues.length, sections, raw_hash)

/-- `qa.REQUIRED_SECTIONS` (qa.py lines 5-20). -/
def REQUIRED_SECTIONS : List String :=
  ["Problem Statement", "Goals", "Non-Goals", "Context & Constraints",
   "Architecture Overview", "Data Design", "API / Interface Contracts",
   "Non-Functional Requirements", "Risks & Mitigations", "Rollout Plan",
   "Test Strategy", "Decision Log", "Prior QA Report Review", "Assumptions"]

/-- `SECTION_FILE_HEADERS` (lines 14-27). -/
def SECTION_FILE_HEADERS : List (String × List String) :=
  [("requirements.md", ["Problem Statement", "Goals", "Non-Goals", "Assumptions"]),
   ("architecture.md",
    ["Architecture Overview", "Components", "Trade-offs", "Diagram", "Assumptions"]),
   ("data_api.md",
    ["Data Design", "Entities", "Data Flows", "Storage/Retention",
     "API / Interface Contracts", "Assumptions"]),
   ("security.md", ["Risks & Mitigations", "Security Controls", "Assumptions"]),
   ("nfrs_ops.md",
    ["Non-Functional Requirements", "Observability", "Ops Runbooks", "Assumptions"])]

/-- Python's `needle in haystack` on strings. -/
def contains_sub (needle hay : String) : Bool := decide (needle.data <:+: hay.data)

/-- `_count_required_sections` (lines 84-93). -/
def count_required_sections (doc_text : String) : Nat × Nat × ℚ :=
  let total := REQUIRED_SECTIONS.length
  if doc_text = "" then (total, 0, 0)
  else
    let completed :=
      (REQUIRED_SECTIONS.filter (fun s => contains_sub ("## " ++ s) doc_text)).length
    (total, completed, round1 (if total ≠ 0 then (completed : ℚ) / (total : ℚ) * 100 else 0))

/-- `_evaluate_section_artifacts` (lines 96-110), over the contents of the
`sections` directory given as `(filename, content)` pairs. -/
def evaluate_section_artifacts (files : List (String × String)) : Nat × Nat × Nat × ℚ :=
  let total := SECTION_FILE_HEADERS.length
  let st := SECTION_FILE_HEADERS.foldl (fun (pv : Nat × Nat) fh =>
    match files.find? (fun f => f.1 == fh.1) with
    | none => pv
    | some f =>
      (pv.1 + 1, if fh.2.all (fun h => contains_sub ("## " ++ h) f.2) then pv.2 + 1 else pv.2))
    (0, 0)
  (total, st.1, st.2, round1 (if total ≠ 0 then (st.2 : ℚ) / (total : ℚ) * 100 else 0))

/-- One run directory matched by `outputs_dir.glob("**/run_*/run_manifest.json")`:
the directory's path components and its artifact files. -/
structure RunDirEntry where
  path : List String
  manifest : FileJson
  design_doc : Option String
  review_report : FileJson
  previous_design_doc : Option String
  previous_review_report : Option String
  section_files : List (String × String)

def path_string (p : List String) : String := String.intercalate "/" p

/-- `sorted(...)` over glob results orders paths by their string form. -/
def entryLe (a b : RunDirEntry) : Bool :=
  strLt (path_string a.path) (path_string b.path) ||
    path_string a.path == path_string b.path

/-- Lines 135-173: build the `RunRecord` for one discovered manifest. -/
def load_run (sha : String → String) (e : RunDirEntry)
    (manifest : List (String × JVal)) : RunRecord :=
  let run_id := e.path.getLast?.getD ""
  let doc_text := e.design_doc.getD ""
  let req := count_required_sections doc_text
  let art := evaluate_section_artifacts e.section_files
  let rpt := parse_review_report sha e.review_report
  { run_id := run_id,
    run_dir := e.path,
    output_dir := match jget manifest "output_dir" with
      | some (.jstr s) => s
      | _ => path_string e.path,
    timestamp := match jget manifest "timestamp" with
      | some (.jstr s) => s
      | _ => run_id,
    qa_status := rpt.1,
    qa_issue_count := rpt.2.1,
    qa_issue_sections := rpt.2.2.1,
    design_doc_exists := e.design_doc.isSome,
    design_doc_text := doc_text,
    design_doc_hash := e.design_doc.map sha,
    review_report_hash := rpt.2.2.2,
    previous_design_doc_hash := e.previous_design_doc.map sha,
    previous_review_report_hash := e.previous_review_report.map sha,
    required_sections_total := req.1,
    required_sections_completed := req.2.1,
    required_sections_completion_pct := req.2.2,
    section_artifacts_total := art.1,
    section_artifacts_present := art.2.1,
    section_artifacts_valid := art.2.2.1,
    section_artifacts_completion_pct := art.2.2.2 }

/-- `discover_runs` (lines 132-175).  A nonexistent outputs directory
(`outputs = none`) yields an empty glob; a run directory whose manifest does
not load is skipped (`continue`); the result is sorted by
`(timestamp, run_id)`. -/
def discover_runs (sha : String → String) (outputs : Option (List RunDirEntry)) :
    List RunRecord :=
  match outputs with
  | none => []
  | some es =>
    sortRuns ((pySort entryLe es).filterMap (fun e =>
      match load_json e.manifest with
      | none => none
      | some manifest => some (load_run sha e manifest)))

/-- The in-place sequence annotation read back onto the flat run list: exact
for unique run ids (the data model's invariant). -/
def annotate_from (seqs : List (List RunRecord)) (r : RunRecord) : RunRecord :=
  match seqs.flatten.find? (fun x => x.run_id == r.run_id) with
  | some x => { r with sequence_id := x.sequence_id, sequence_index := x.sequence_index }
  | none => r

structure EvalResult where
  run_count : Nat
  sequence_count : Nat
  run_metrics : List RunMetric
  sequence_summaries : List SequenceSummary

/-- `evaluate_outputs` (lines 445-462). -/
def evaluate_outputs (sha : String → String) (outputs : Option (List RunDirEntry))
    (convergence_threshold : ℚ) (plateau_window : Nat) : EvalResult :=
  let runs := discover_runs sha outputs
  let runs2 := reconstruct_lineage runs
  let seqs := assign_sequences runs2
  let runsA := runs2.map (annotate_from seqs)
  { run_count := runs.length,
    sequence_count := seqs.length,
    run_metrics := compute_run_metrics runsA convergence_threshold,
    sequence_summaries :=
      summarize_sequences seqs (compute_run_metrics runsA convergence_threshold)
        plateau_window }

/-! ### C5: run_id derivation and uniqueness -/

/-- Line 141: `run_id = run_dir.name`, the leaf directory name. -/
theorem load_run_run_id (sha : String → String) (e : RunDirEntry)
    (m : List (String × JVal)) :
    (load_run sha e m).run_id = e.path.getLast?.getD "" := rfl

theorem load_run_run_dir (sha : String → String) (e : RunDirEntry)
    (m : List (String × JVal)) :
    (load_run sha e m).run_dir = e.path := rfl

/-- The run ids produced by the discovery `filterMap` are exactly the leaf
directory names of the entries whose manifest loads. -/
theorem run_ids_filterMap (sha : String → String) (l : List RunDirEntry) :
    (l.filterMap (fun e =>
      match load_json e.manifest with
      | none => none
      | some m => some (load_run sha e m))).map RunRecord.run_id =
    (l.filter (fun e => (load_json e.manifest).isSome)).map
      (fun e => e.path.getLast?.getD "") := by
  induction l with
  | nil => rfl
  | cons e l ih =>
    rcases hm : load_json e.manifest with _ | m
    · simpa [List.filterMap_cons, List.filter_cons, hm] using ih
    · simp [List.filterMap_cons, List.filter_cons, hm, ih, load_run_run_id]

/-- Every discovered run comes from an entry of the scanned tree whose
manifest loads, via `load_run`. -/
theorem discover_runs_provenance (sha : String → String) (es : List RunDirEntry)
    (r : RunRecord) (hr : r ∈ discover_runs sha (some es)) :
    ∃ e ∈ es, ∃ m, load_json e.manifest = some m ∧ r = load_run sha e m := by
  have hperm : (sortRuns ((pySort entryLe es).filterMap (fun e =>
      match load_json e.manifest with
      | none => none
      | some m => some (load_run sha e m)))).Perm
      ((pySort entryLe es).filterMap (fun e =>
      match load_json e.manifest with
      | none => none
      | some m => some (load_run sha e m))) := sortRuns_perm _
  have hr2 := hperm.mem_iff.mp hr
  rw [List.mem_filterMap] at hr2
  obtain ⟨e, he, hfe⟩ := hr2
  refine ⟨e, (pySort_perm entryLe es).mem_iff.mp he, ?_⟩
  rcases hm : load_json e.manifest with _ | m
  · rw [hm] at hfe
    exact absurd hfe (by simp)
  · rw [hm] at hfe
    exact ⟨m, rfl, (Option.some_inj.mp hfe).symm⟩

/-- Two sibling run directories that share a leaf name. -/
def e5a : RunDirEntry :=
  { path := ["outputs", "a", "run_1"], manifest := .val "m" (.jobj []),
    design_doc := none, review_report := .absent, previous_design_doc := none,
    previous_review_report := none, section_files := [] }

def e5b : RunDirEntry :=
  { path := ["outputs", "b", "run_1"], manifest := .val "m" (.jobj []),
    design_doc := none, review_report := .absent, previous_design_doc := none,
    previous_review_report := none, section_files := [] }

/-- C5 counterexample: `run_id` is only the leaf directory name, so two run
directories under different date folders that share a leaf name yield two
distinct discovered runs with equal `run_id`, refuting uniqueness across the
whole evaluated tree. -/
theorem C5_leaf_collision_counterexample :
    (discover_runs (fun s => s) (some [e5a, e5b])).map RunRecord.run_id =
      ["run_1", "run_1"] ∧
    (discover_runs (fun s => s) (some [e5a, e5b])).map RunRecord.run_dir =
      [["outputs", "a", "run_1"], ["outputs", "b", "run_1"]] ∧
    ¬ ((discover_runs (fun s => s) (some [e5a, e5b])).map RunRecord.run_id).Nodup := by
  refine ⟨rfl, rfl, by decide⟩

/-- C5 (amended: uniqueness holds only when the leaf directory names of the
scanned run directories are pairwise distinct, since `run_id` is derived
from the storage location as the leaf name alone — sibling `run_*` folders
under different parents can collide): each discovered run's `run_id` is its
directory's leaf name and its `run_dir` its storage location, and under
pairwise-distinct leaf names the discovered `run_id`s are without
duplicates. -/
theorem C5_run_id_uniqueness (sha : String → String) (es : List RunDirEntry)
    (h : (es.map (fun e => e.path.getLast?.getD "")).Nodup) :
    ((discover_runs sha (some es)).map RunRecord.run_id).Nodup ∧
    ∀ r ∈ discover_runs sha (some es), ∃ e ∈ es,
      r.run_id = e.path.getLast?.getD "" ∧ r.run_dir = e.path := by
  constructor
  · have hperm1 : (pySort entryLe es).Perm es := pySort_perm _ _
    have h1 : ((pySort entryLe es).map (fun e => e.path.getLast?.getD "")).Nodup :=
      ((hperm1.map _).nodup_iff).mpr h
    have hsub : List.Sublist
        (((pySort entryLe es).filter
          (fun e => (load_json e.manifest).isSome)).map (fun e => e.path.getLast?.getD ""))
        ((pySort entryLe es).map (fun e => e.path.getLast?.getD "")) :=
      (List.filter_sublist _).map _
    have h2 := h1.sublist hsub
    rw [← run_ids_filterMap sha] at h2
    have hperm2 : (sortRuns ((pySort entryLe es).filterMap (fun e =>
        match load_json e.manifest with
        | none => none
        | some m => some (load_run sha e m)))).Perm
        ((pySort entryLe es).filterMap (fun e =>
        match load_json e.manifest with
        | none => none
        | some m => some (load_run sha e m))) := sortRuns_perm _
    exact ((hperm2.map RunRecord.run_id).nodup_iff).mpr h2
  · intro r hr
    obtain ⟨e, he, m, hm, hrm⟩ := discover_runs_provenance sha es r hr
    exact ⟨e, he, by rw [hrm]; exact load_run_run_id sha e m,
      by rw [hrm]; exact load_run_run_dir sha e m⟩

theorem C5_run_id_uniqueness_witness :
    (([e5a].map (fun e => e.path.getLast?.getD "")).Nodup) ∧
    ((discover_runs (fun s => s) (some [e5a])).map RunRecord.run_id).Nodup ∧
    ∀ r ∈ discover_runs (fun s => s) (some [e5a]), ∃ e ∈ [e5a],
      r.run_id = e.path.getLast?.getD "" ∧ r.run_dir = e.path :=
  ⟨by decide, C5_run_id_uniqueness (fun s => s) [e5a] (by decide)⟩

/-! ### C9: manifest-gated discovery and downstream exclusion -/

/-- `reconstruct_lineage` writes only `parent_run_id`. -/
theorem lineage_step_run_id (runs : List RunRecord) (r : RunRecord) :
    (lineage_step runs r).run_id = r.run_id := by
  rcases h : (pySort keyLe (parent_candidates runs r)).getLast? with _ | c <;>
    simp [lineage_step, h]

theorem lineage_step_run_dir (runs : List RunRecord) (r : RunRecord) :
    (lineage_step runs r).run_dir = r.run_dir := by
  rcases h : (pySort keyLe (parent_candidates runs r)).getLast? with _ | c <;>
    simp [lineage_step, h]

/-- Annotation writes only the sequence fields. -/
theorem annotate_from_run_id (seqs : List (List RunRecord)) (r : RunRecord) :
    (annotate_from seqs r).run_id = r.run_id := by
  rcases h : seqs.flatten.find? (fun x => x.run_id == r.run_id) with _ | x <;>
    simp [annotate_from, h]

/-- A metric row carries its run's id. -/
theorem compute_run_metrics_one_run_id (runs : List RunRecord) (ct : ℚ) (run : RunRecord) :
    (compute_run_metrics_one runs ct run).run_id = run.run_id := by
  rcases h : resolve_parent runs run with _ | p <;>
    simp [compute_run_metrics_one, h]

/-- Every id placed into some sequence names a run of the input list (no
uniqueness assumption needed). -/
theorem seq_ids_sub (runs : List RunRecord) :
    ∀ i ∈ seq_ids (assign_sequences runs), ∃ r ∈ runs, r.run_id = i := by
  obtain ⟨hv, hn, hs, hg⟩ := assign_fold_inv runs (roots_of runs) ([], 0, [])
    (roots_of_sub runs) (assign_inv_init runs)
  have hrepr : assign_sequences runs =
      ((roots_of runs).foldl (assign_step runs) ([], 0, [])).2.2 ++
        (runs.filter (fun r =>
          !((roots_of runs).foldl (assign_step runs) ([], 0, [])).1.contains r.run_id)).mapIdx
          (fun i r => [{ r with
            sequence_id := some (seq_label r
              (((roots_of runs).foldl (assign_step runs) ([], 0, [])).2.1 + i + 1)),
            sequence_index := some 1 }]) := rfl
  intro i hi
  rw [hrepr, seq_ids_append, seq_ids_singletons
    (fun i r => [{ r with
      sequence_id := some (seq_label r
        (((roots_of runs).foldl (assign_step runs) ([], 0, [])).2.1 + i + 1)),
      sequence_index := some 1 }])
    (fun _ _ => rfl), List.mem_append] at hi
  rcases hi with hi | hi
  · exact hs i hi
  · obtain ⟨r, hr, hrid⟩ := List.mem_map.mp hi
    exact ⟨r, (List.mem_filter.mp hr).1, hrid⟩

/-- Membership of a sequence member's id in the flattened id list. -/
theorem mem_seq_ids {seqs : List (List RunRecord)} {s : List RunRecord} {x : RunRecord}
    (hs : s ∈ seqs) (hx : x ∈ s) : x.run_id ∈ seq_ids seqs := by
  unfold seq_ids
  rw [List.mem_flatten]
  exact ⟨s.map RunRecord.run_id, List.mem_map_of_mem _ hs, List.mem_map_of_mem _ hx⟩

/-- The id lists reported per sequence summary. -/
theorem summarize_one_run_ids (metricOf : String → RunMetric) (W : Nat)
    (s : List RunRecord) :
    (summarize_one metricOf W s).run_ids = (pySort keyLe s).map (fun r => r.run_id) := rfl

/-- Entries with equal leaf names coincide when all scanned leaf names are
pairwise distinct. -/
theorem leaf_inj {es : List RunDirEntry}
    (huniq : (es.map (fun x => x.path.getLast?.getD "")).Nodup) :
    ∀ a ∈ es, ∀ b ∈ es,
      a.path.getLast?.getD "" = b.path.getLast?.getD "" → a = b := by
  intro a ha b hb hab
  exact List.inj_on_of_nodup_map huniq ha hb hab

/-- C9: a nonexistent outputs directory yields zero runs; discovery returns
runs sorted by `(timestamp, run_id)`; and a run directory whose manifest is
absent or unparsable is excluded from discovery entirely — under the
pairwise-distinct-leaf-name invariant its id and path appear in no discovered
run, no run metric, no assigned sequence and no sequence summary of the full
evaluation. -/
theorem C9_manifest_gate (sha : String → String) (es : List RunDirEntry)
    (e : RunDirEntry) (ct : ℚ) (W : Nat)
    (he : e ∈ es) (hbad : load_json e.manifest = none)
    (huniq : (es.map (fun x => x.path.getLast?.getD "")).Nodup) :
    discover_runs sha none = [] ∧
    (discover_runs sha (some es)).Pairwise (fun a b => keyLe a b = true) ∧
    (∀ r ∈ discover_runs sha (some es),
      r.run_dir ≠ e.path ∧ r.run_id ≠ e.path.getLast?.getD "") ∧
    (∀ m ∈ (evaluate_outputs sha (some es) ct W).run_metrics,
      m.run_id ≠ e.path.getLast?.getD "") ∧
    (∀ s ∈ assign_sequences (reconstruct_lineage (discover_runs sha (some es))),
      ∀ x ∈ s, x.run_id ≠ e.path.getLast?.getD "") ∧
    (∀ sm ∈ (evaluate_outputs sha (some es) ct W).sequence_summaries,
      e.path.getLast?.getD "" ∉ sm.run_ids) := by
  have hnotid : ∀ r ∈ discover_runs sha (some es),
      r.run_dir ≠ e.path ∧ r.run_id ≠ e.path.getLast?.getD "" := by
    intro r hr
    obtain ⟨e', he', m, hm, rfl⟩ := discover_runs_provenance sha es r hr
    have hne : e' ≠ e := by
      rintro rfl
      rw [hm] at hbad
      exact absurd hbad (by simp)
    constructor
    · rw [load_run_run_dir]
      intro hpath
      exact hne (leaf_inj huniq e' he' e he (by rw [hpath]))
    · rw [load_run_run_id]
      intro hleaf
      exact hne (leaf_inj huniq e' he' e he hleaf)
  have hrun2 : ∀ x ∈ reconstruct_lineage (discover_runs sha (some es)),
      x.run_id ≠ e.path.getLast?.getD "" := by
    intro x hx
    obtain ⟨r, hr, rfl⟩ := List.mem_map.mp hx
    rw [lineage_step_run_id]
    exact (hnotid r hr).2
  have hseqx : ∀ s ∈ assign_sequences (reconstruct_lineage (discover_runs sha (some es))),
      ∀ x ∈ s, x.run_id ≠ e.path.getLast?.getD "" := by
    intro s hsm x hx
    have hmem := mem_seq_ids hsm hx
    obtain ⟨y, hy, hyid⟩ := seq_ids_sub _ _ hmem
    rw [← hyid]
    exact hrun2 y hy
  refine ⟨rfl, ?_, hnotid, ?_, hseqx, ?_⟩
  · show (sortRuns _).Pairwise _
    exact sortRuns_sorted _
  · intro m hm
    have hm' : m ∈ compute_run_metrics
        ((reconstruct_lineage (discover_runs sha (some es))).map
          (annotate_from (assign_sequences (reconstruct_lineage (discover_runs sha (some es))))))
        ct := hm
    obtain ⟨x, hx, rfl⟩ := List.mem_map.mp hm'
    rw [compute_run_metrics_one_run_id]
    obtain ⟨y, hy, rfl⟩ := List.mem_map.mp hx
    rw [annotate_from_run_id]
    exact hrun2 y hy
  · intro sm hsm
    have hsm' : sm ∈ (assign_sequences (reconstruct_lineage
        (discover_runs sha (some es)))).map (summarize_one
          (fun i => (metric_by_run (compute_run_metrics
            ((reconstruct_lineage (discover_runs sha (some es))).map
              (annotate_from (assign_sequences (reconstruct_lineage
                (discover_runs sha (some es))))))
            ct) i).getD default_metric) W) := hsm
    obtain ⟨s, hs, rfl⟩ := List.mem_map.mp hsm'
    rw [summarize_one_run_ids]
    intro hmem
    obtain ⟨x, hx, hxid⟩ := List.mem_map.mp hmem
    exact hseqx s hs x ((pySort_perm keyLe s).mem_iff.mp hx) hxid

/-- A well-formed run directory next to one whose manifest is missing. -/
def e9a : RunDirEntry :=
  { path := ["outputs", "run_a"], manifest := .val "m" (.jobj []),
    design_doc := none, review_report := .absent, previous_design_doc := none,
    previous_review_report := none, section_files := [] }

def e9b : RunDirEntry :=
  { path := ["outputs", "run_b"], manifest := .absent,
    design_doc := none, review_report := .absent, previous_design_doc := none,
    previous_review_report := none, section_files := [] }

theorem C9_manifest_gate_witness :
    (load_json e9b.manifest = none ∧
      (([e9a, e9b]).map (fun x => x.path.getLast?.getD "")).Nodup) ∧
    (discover_runs (fun s => s) none = [] ∧
    (discover_runs (fun s => s) (some [e9a, e9b])).Pairwise (fun a b => keyLe a b = true) ∧
    (∀ r ∈ discover_runs (fun s => s) (some [e9a, e9b]),
      r.run_dir ≠ e9b.path ∧ r.run_id ≠ e9b.path.getLast?.getD "") ∧
    (∀ m ∈ (evaluate_outputs (fun s => s) (some [e9a, e9b]) 1 2).run_metrics,
      m.run_id ≠ e9b.path.getLast?.getD "") ∧
    (∀ s ∈ assign_sequences (reconstruct_lineage (discover_runs (fun s => s) (some [e9a, e9b]))),
      ∀ x ∈ s, x.run_id ≠ e9b.path.getLast?.getD "") ∧
    (∀ sm ∈ (evaluate_outputs (fun s => s) (some [e9a, e9b]) 1 2).sequence_summaries,
      e9b.path.getLast?.getD "" ∉ sm.run_ids)) :=
  ⟨⟨rfl, by decide⟩,
    C9_manifest_gate (fun s => s) [e9a, e9b] e9b 1 2
      (by simp) rfl (by decide)⟩

/-! ### C6: similarity bounds

The matcher state invariants: every best block lies inside the two ranges,
and every nonzero `j2len` entry is a genuine run length bounded by its
column's distance from `blo`. -/

def GoodBest (alo ahi blo bhi : Nat) (t : Nat × Nat × Nat) : Prop :=
  alo ≤ t.1 ∧ blo ≤ t.2.1 ∧ t.1 + t.2.2 ≤ ahi ∧ t.2.1 + t.2.2 ≤ bhi

def GoodRow (alo blo bhi i : Nat) (g : Nat → Nat) : Prop :=
  ∀ j, g j ≤ i - alo ∧ (g j ≠ 0 → blo ≤ j ∧ j < bhi ∧ g j ≤ j + 1 - blo)

theorem innerLoop_good (alo ahi blo bhi i : Nat)
    (hia : alo ≤ i) (hi : i < ahi) (j2lenOld : Nat → Nat)
    (hold : GoodRow alo blo bhi i j2lenOld) :
    ∀ (js : List Nat) (g : Nat → Nat) (best : Nat × Nat × Nat),
      GoodRow alo blo bhi (i + 1) g → GoodBest alo ahi blo bhi best →
      GoodRow alo blo bhi (i + 1) (innerLoop j2lenOld i blo bhi js g best).1 ∧
      GoodBest alo ahi blo bhi (innerLoop j2lenOld i blo bhi js g best).2 := by
  intro js
  induction js with
  | nil => intro g best hg hb; exact ⟨hg, hb⟩
  | cons j js ih =>
    intro g best hg hb
    by_cases h1 : j < blo
    · have hstep : innerLoop j2lenOld i blo bhi (j :: js) g best =
          innerLoop j2lenOld i blo bhi js g best := by
        simp only [innerLoop, if_pos h1]
      rw [hstep]
      exact ih g best hg hb
    · by_cases h2 : bhi ≤ j
      · have hstep : innerLoop j2lenOld i blo bhi (j :: js) g best = (g, best) := by
          simp only [innerLoop, if_neg h1, if_pos h2]
        rw [hstep]
        exact ⟨hg, hb⟩
      · have hstep : innerLoop j2lenOld i blo bhi (j :: js) g best =
            innerLoop j2lenOld i blo bhi js
              (fun x => if x = j then (if j = 0 then 0 else j2lenOld (j - 1)) + 1 else g x)
              (if best.2.2 < (if j = 0 then 0 else j2lenOld (j - 1)) + 1
                then (i + 1 - ((if j = 0 then 0 else j2lenOld (j - 1)) + 1),
                      j + 1 - ((if j = 0 then 0 else j2lenOld (j - 1)) + 1),
                      (if j = 0 then 0 else j2lenOld (j - 1)) + 1)
                else best) := by
          simp only [innerLoop, if_neg h1, if_neg h2]
        rw [hstep]
        have hkb : (if j = 0 then 0 else j2lenOld (j - 1)) + 1 ≤ i + 1 - alo := by
          have := (hold (j - 1)).1
          by_cases hj0 : j = 0 <;> simp [hj0] <;> omega
        have hkj : (if j = 0 then 0 else j2lenOld (j - 1)) + 1 ≤ j + 1 - blo := by
          have hblo : blo ≤ j := by omega
          by_cases hj0 : j = 0
          · simp [hj0]
            omega
          · rw [if_neg hj0]
            by_cases hz : j2lenOld (j - 1) = 0
            · rw [hz]
              omega
            · have := ((hold (j - 1)).2 hz).2.2
              have := ((hold (j - 1)).2 hz).1
              omega
        apply ih
        · intro x
          by_cases hx : x = j
          · subst hx
            refine ⟨?_, fun _ => ⟨by omega, by omega, ?_⟩⟩
            · simpa using hkb
            · simpa using hkj
          · simpa [hx] using hg x
        · by_cases hk : best.2.2 < (if j = 0 then 0 else j2lenOld (j - 1)) + 1
          · rw [if_pos hk]
            obtain ⟨b1, b2, b3, b4⟩ := hb
            dsimp only [GoodBest]
            exact ⟨by omega, by omega, by omega, by omega⟩
          · rw [if_neg hk]
            exact hb

theorem flmRows_good (a b : List Char) (alo blo bhi : Nat) :
    ∀ (n i : Nat) (g : Nat → Nat) (best : Nat × Nat × Nat),
      alo ≤ i → GoodRow alo blo bhi i g → GoodBest alo (i + n) blo bhi best →
      GoodBest alo (i + n) blo bhi (flmRows a b blo bhi (List.range' i n) g best) := by
  intro n
  induction n with
  | zero =>
    intro i g best _ _ hb
    simpa [flmRows] using hb
  | succ n ih =>
    intro i g best hai hg hb
    rw [List.range'_succ]
    have hstep : flmRows a b blo bhi (i :: List.range' (i + 1) n) g best =
        flmRows a b blo bhi (List.range' (i + 1) n)
          (innerLoop g i blo bhi (b2j b (a.getD i ' ')) (fun _ => 0) best).1
          (innerLoop g i blo bhi (b2j b (a.getD i ' ')) (fun _ => 0) best).2 := by
      simp only [flmRows]
    rw [hstep]
    obtain ⟨hg', hb'⟩ := innerLoop_good alo (i + (n + 1)) blo bhi i hai (by omega) g hg
      (b2j b (a.getD i ' ')) (fun _ => 0) best
      (fun j => ⟨Nat.zero_le _, fun h => absurd rfl h⟩) hb
    have he : i + (n + 1) = (i + 1) + n := by omega
    rw [he] at hb' ⊢
    exact ih (i + 1) _ _ (by omega) hg' hb'

theorem extendLowerAux_good (a b : List Char) (alo ahi blo bhi : Nat) :
    ∀ (fuel : Nat) (t : Nat × Nat × Nat), GoodBest alo ahi blo bhi t →
      GoodBest alo ahi blo bhi (extendLowerAux a b alo blo fuel t) := by
  intro fuel
  induction fuel with
  | zero => intro t ht; exact ht
  | succ fuel ih =>
    rintro ⟨bi, bj, bs⟩ ht
    obtain ⟨h1, h2, h3, h4⟩ := ht
    dsimp only at h1 h2 h3 h4
    by_cases h : alo < bi ∧ blo < bj ∧ a.getD (bi - 1) ' ' == b.getD (bj - 1) ' '
    · have hstep : extendLowerAux a b alo blo (fuel + 1) (bi, bj, bs) =
          extendLowerAux a b alo blo fuel (bi - 1, bj - 1, bs + 1) := by
        simp only [extendLowerAux, if_pos h]
      rw [hstep]
      refine ih _ ?_
      dsimp only [GoodBest]
      exact ⟨by omega, by omega, by omega, by omega⟩
    · have hstep : extendLowerAux a b alo blo (fuel + 1) (bi, bj, bs) = (bi, bj, bs) := by
        simp only [extendLowerAux, if_neg h]
      rw [hstep]
      exact ⟨h1, h2, h3, h4⟩

theorem extendUpperAux_good (a b : List Char) (alo ahi blo bhi : Nat) :
    ∀ (fuel : Nat) (t : Nat × Nat × Nat), GoodBest alo ahi blo bhi t →
      GoodBest alo ahi blo bhi (extendUpperAux a b ahi bhi fuel t) := by
  intro fuel
  induction fuel with
  | zero => intro t ht; exact ht
  | succ fuel ih =>
    rintro ⟨bi, bj, bs⟩ ht
    obtain ⟨h1, h2, h3, h4⟩ := ht
    dsimp only at h1 h2 h3 h4
    by_cases h : bi + bs < ahi ∧ bj + bs < bhi ∧
        a.getD (bi + bs) ' ' == b.getD (bj + bs) ' '
    · have hstep : extendUpperAux a b ahi bhi (fuel + 1) (bi, bj, bs) =
          extendUpperAux a b ahi bhi fuel (bi, bj, bs + 1) := by
        simp only [extendUpperAux, if_pos h]
      rw [hstep]
      refine ih _ ?_
      dsimp only [GoodBest]
      exact ⟨by omega, by omega, by omega, by omega⟩
    · have hstep : extendUpperAux a b ahi bhi (fuel + 1) (bi, bj, bs) = (bi, bj, bs) := by
        simp only [extendUpperAux, if_neg h]
      rw [hstep]
      exact ⟨h1, h2, h3, h4⟩

theorem find_longest_match_good (a b : List Char) (alo ahi blo bhi : Nat)
    (ha : alo ≤ ahi) (hb : blo ≤ bhi) :
    GoodBest alo ahi blo bhi (find_longest_match a b alo ahi blo bhi) := by
  unfold find_longest_match extendUpper extendLower
  apply extendUpperAux_good a b alo ahi blo bhi
  apply extendLowerAux_good a b alo ahi blo bhi
  have hinit : GoodBest alo (alo + (ahi - alo)) blo bhi (alo, blo, 0) := by
    dsimp only [GoodBest]
    exact ⟨Nat.le_refl _, Nat.le_refl _, by omega, by omega⟩
  have := flmRows_good a b alo blo bhi (ahi - alo) alo (fun _ => 0) (alo, blo, 0)
    (Nat.le_refl _) (fun j => ⟨Nat.zero_le _, fun h => absurd rfl h⟩) hinit
  have he : alo + (ahi - alo) = ahi := by omega
  rw [he] at this
  exact this

theorem matchesTotalAux_le (a b : List Char) :
    ∀ (fuel alo ahi blo bhi : Nat), alo ≤ ahi → blo ≤ bhi →
      2 * matchesTotalAux a b fuel alo ahi blo bhi ≤ (ahi - alo) + (bhi - blo) := by
  intro fuel
  induction fuel with
  | zero => intro alo ahi blo bhi _ _; simp [matchesTotalAux]
  | succ fuel ih =>
    intro alo ahi blo bhi ha hb
    obtain ⟨g1, g2, g3, g4⟩ := find_longest_match_good a b alo ahi blo bhi ha hb
    have hstep : matchesTotalAux a b (fuel + 1) alo ahi blo bhi =
        (if (find_longest_match a b alo ahi blo bhi).2.2 = 0 then 0
          else (find_longest_match a b alo ahi blo bhi).2.2 +
            (if alo < (find_longest_match a b alo ahi blo bhi).1 ∧
                blo < (find_longest_match a b alo ahi blo bhi).2.1
              then matchesTotalAux a b fuel alo (find_longest_match a b alo ahi blo bhi).1
                blo (find_longest_match a b alo ahi blo bhi).2.1 else 0) +
            (if (find_longest_match a b alo ahi blo bhi).1 +
                  (find_longest_match a b alo ahi blo bhi).2.2 < ahi ∧
                (find_longest_match a b alo ahi blo bhi).2.1 +
                  (find_longest_match a b alo ahi blo bhi).2.2 < bhi
              then matchesTotalAux a b fuel
                ((find_longest_match a b alo ahi blo bhi).1 +
                  (find_longest_match a b alo ahi blo bhi).2.2) ahi
                ((find_longest_match a b alo ahi blo bhi).2.1 +
                  (find_longest_match a b alo ahi blo bhi).2.2) bhi else 0)) := by
      simp only [matchesTotalAux]
    rw [hstep]
    set t := find_longest_match a b alo ahi blo bhi with ht
    by_cases h0 : t.2.2 = 0
    · rw [if_pos h0]
      omega
    · rw [if_neg h0]
      by_cases hL : alo < t.1 ∧ blo < t.2.1
      · have hLe := ih alo t.1 blo t.2.1 (Nat.le_of_lt hL.1) (Nat.le_of_lt hL.2)
        by_cases hR : t.1 + t.2.2 < ahi ∧ t.2.1 + t.2.2 < bhi
        · have hRe := ih (t.1 + t.2.2) ahi (t.2.1 + t.2.2) bhi
            (Nat.le_of_lt hR.1) (Nat.le_of_lt hR.2)
          rw [if_pos hL, if_pos hR]
          omega
        · rw [if_pos hL, if_neg hR]
          omega
      · by_cases hR : t.1 + t.2.2 < ahi ∧ t.2.1 + t.2.2 < bhi
        · have hRe := ih (t.1 + t.2.2) ahi (t.2.1 + t.2.2) bhi
            (Nat.le_of_lt hR.1) (Nat.le_of_lt hR.2)
          rw [if_neg hL, if_pos hR]
          omega
        · rw [if_neg hL, if_neg hR]
          omega

theorem matchesTotal_le (a b : List Char) :
    2 * matchesTotal a b 0 a.length 0 b.length ≤ a.length + b.length := by
  have := matchesTotalAux_le a b (a.length + b.length) 0 a.length 0 b.length
    (Nat.zero_le _) (Nat.zero_le _)
  simpa [matchesTotal] using this

/-- `round(q, d)` of an exactly representable value. -/
theorem pyRound_intval (q : ℚ) (d : Nat) (z : ℤ) (h : q * 10 ^ d = (z : ℚ)) :
    pyRound q d = (z : ℚ) / 10 ^ d := by
  simp only [pyRound]
  rw [h, Int.floor_intCast]
  norm_num

/-- Banker's rounding keeps the unit interval. -/
theorem pyRound_unit (q : ℚ) (d : Nat) (h0 : 0 ≤ q) (h1 : q ≤ 1) :
    0 ≤ pyRound q d ∧ pyRound q d ≤ 1 := by
  simp only [pyRound]
  have hs : (0 : ℚ) < 10 ^ d := by positivity
  have hx0 : 0 ≤ q * 10 ^ d := by positivity
  have hx1 : q * 10 ^ d ≤ 10 ^ d := by nlinarith
  have hcast : ((10 ^ d : ℤ) : ℚ) = (10 : ℚ) ^ d := by push_cast; ring
  have hf0 : (0 : ℤ) ≤ ⌊q * 10 ^ d⌋ := Int.floor_nonneg.mpr hx0
  have hfs : ⌊q * 10 ^ d⌋ ≤ 10 ^ d := by
    calc ⌊q * 10 ^ d⌋ ≤ ⌊((10 ^ d : ℤ) : ℚ)⌋ := Int.floor_le_floor (by rw [hcast]; exact hx1)
      _ = 10 ^ d := Int.floor_intCast _
  have hfloor : (↑⌊q * 10 ^ d⌋ : ℚ) ≤ q * 10 ^ d := Int.floor_le _
  constructor
  · apply div_nonneg _ (le_of_lt hs)
    split_ifs with hlt hgt heven
    · exact_mod_cast hf0
    · exact_mod_cast (by omega : (0 : ℤ) ≤ ⌊q * 10 ^ d⌋ + 1)
    · exact_mod_cast hf0
    · exact_mod_cast (by omega : (0 : ℤ) ≤ ⌊q * 10 ^ d⌋ + 1)
  · rw [div_le_one hs]
    have hnext : ¬ (q * 10 ^ d - ↑⌊q * 10 ^ d⌋ < 1 / 2) → ⌊q * 10 ^ d⌋ + 1 ≤ 10 ^ d := by
      intro hge
      rcases lt_or_eq_of_le hfs with hlt2 | heq
      · omega
      · exfalso
        apply hge
        have : (↑⌊q * 10 ^ d⌋ : ℚ) = 10 ^ d := by rw [heq, hcast]
        rw [this]
        linarith
    split_ifs with hlt hgt heven
    · rw [← hcast]
      exact_mod_cast hfs
    · rw [← hcast]
      exact_mod_cast hnext hlt
    · rw [← hcast]
      exact_mod_cast hfs
    · rw [← hcast]
      exact_mod_cast hnext hlt

theorem sm_ratio_unit (a b : List Char) : 0 ≤ sm_ratio a b ∧ sm_ratio a b ≤ 1 := by
  unfold sm_ratio calculate_ratio
  by_cases h : a.length + b.length = 0
  · rw [if_neg (by simpa using h)]
    exact ⟨zero_le_one, le_refl 1⟩
  · rw [if_pos (by simpa using h)]
    have hM := matchesTotal_le a b
    have hpos : (0 : ℚ) < ((a.length + b.length : Nat) : ℚ) := by
      exact_mod_cast Nat.pos_of_ne_zero h
    constructor
    · positivity
    · rw [div_le_one (by push_cast at hpos ⊢; exact hpos)]
      push_cast
      exact_mod_cast hM

/-! ### Self-comparison: the matcher's run lengths on `x` vs `x`

`csA x i j` is the length of the matching run ending at cell `(i, j)` of the
`x`-vs-`x` match table, as actually maintained by the inner loop: a run
contributes only while each row's element has a nonempty `b2j` entry (the
`autojunk` heuristic empties popular elements' entries, resetting runs). -/

def csA (x : List Char) : Nat → Nat → Nat
  | 0, j =>
    if (x.getD 0 ' ' == x.getD j ' ') && !(b2j x (x.getD 0 ' ')).isEmpty then 1 else 0
  | i + 1, j =>
    if (x.getD (i + 1) ' ' == x.getD j ' ') && !(b2j x (x.getD (i + 1) ' ')).isEmpty then
      (if j = 0 then 1 else csA x i (j - 1) + 1)
    else 0

theorem csA_drop (x : List Char) (i j : Nat)
    (h : (b2j x (x.getD i ' ')).isEmpty = true) : csA x i j = 0 := by
  cases i with
  | zero =>
    have hg : ((x.getD 0 ' ' == x.getD j ' ') && !(b2j x (x.getD 0 ' ')).isEmpty) = false := by
      rw [h]
      simp
    rw [csA, hg]
    rfl
  | succ i =>
    have hg : ((x.getD (i + 1) ' ' == x.getD j ' ') &&
        !(b2j x (x.getD (i + 1) ' ')).isEmpty) = false := by
      rw [h]
      simp
    rw [csA, hg]
    rfl

theorem csA_ne (x : List Char) (i j : Nat)
    (h : ¬ x.getD i ' ' = x.getD j ' ') : csA x i j = 0 := by
  have hg : (x.getD i ' ' == x.getD j ' ') = false := by
    cases hx : x.getD i ' ' == x.getD j ' '
    · rfl
    · exact absurd (beq_iff_eq.mp hx) h
  cases i with
  | zero =>
    rw [csA, hg, Bool.false_and]
    rfl
  | succ i =>
    rw [csA, hg, Bool.false_and]
    rfl

theorem csA_le_left (x : List Char) : ∀ i j, csA x i j ≤ i + 1 := by
  intro i
  induction i with
  | zero =>
    intro j
    rw [csA]
    split_ifs <;> omega
  | succ i ih =>
    intro j
    by_cases h : ((x.getD (i + 1) ' ' == x.getD j ' ') && !(b2j x (x.getD (i + 1) ' ')).isEmpty) = true
    · rw [csA, if_pos h]
      by_cases hj : j = 0
      · rw [if_pos hj]; omega
      · rw [if_neg hj]
        have := ih (j - 1)
        omega
    · rw [csA, if_neg h]
      omega

theorem csA_le_right (x : List Char) : ∀ i j, csA x i j ≤ j + 1 := by
  intro i
  induction i with
  | zero =>
    intro j
    rw [csA]
    split_ifs <;> omega
  | succ i ih =>
    intro j
    by_cases h : ((x.getD (i + 1) ' ' == x.getD j ' ') && !(b2j x (x.getD (i + 1) ' ')).isEmpty) = true
    · rw [csA, if_pos h]
      by_cases hj : j = 0
      · rw [if_pos hj]; omega
      · rw [if_neg hj]
        have := ih (j - 1)
        omega
    · rw [csA, if_neg h]
      omega

theorem csA_guard_symm (x : List Char) (i j : Nat) :
    ((x.getD i ' ' == x.getD j ' ') && !(b2j x (x.getD i ' ')).isEmpty) =
    ((x.getD j ' ' == x.getD i ' ') && !(b2j x (x.getD j ' ')).isEmpty) := by
  by_cases hc : x.getD i ' ' = x.getD j ' '
  · rw [hc]
  · have h1 : (x.getD i ' ' == x.getD j ' ') = false := by
      cases hx : x.getD i ' ' == x.getD j ' '
      · rfl
      · exact absurd (beq_iff_eq.mp hx) hc
    have h2 : (x.getD j ' ' == x.getD i ' ') = false := by
      cases hx : x.getD j ' ' == x.getD i ' '
      · rfl
      · exact absurd (beq_iff_eq.mp hx).symm hc
    rw [h1, h2, Bool.false_and, Bool.false_and]

theorem csA_symm (x : List Char) : ∀ i j, csA x i j = csA x j i := by
  intro i
  induction i with
  | zero =>
    intro j
    cases j with
    | zero => rfl
    | succ j =>
      rw [csA, csA, csA_guard_symm]
      by_cases h : (x.getD (j + 1) ' ' == x.getD 0 ' ') && !(b2j x (x.getD (j + 1) ' ')).isEmpty
      · rw [if_pos h, if_pos h, if_pos rfl]
      · rw [if_neg h, if_neg h]
  | succ i ih =>
    intro j
    cases j with
    | zero =>
      rw [csA, csA, csA_guard_symm]
      by_cases h : (x.getD 0 ' ' == x.getD (i + 1) ' ') && !(b2j x (x.getD 0 ' ')).isEmpty
      · rw [if_pos h, if_pos h, if_pos rfl]
      · rw [if_neg h, if_neg h]
    | succ j =>
      rw [csA, csA, csA_guard_symm]
      by_cases h : (x.getD (j + 1) ' ' == x.getD (i + 1) ' ') && !(b2j x (x.getD (j + 1) ' ')).isEmpty
      · rw [if_pos h, if_pos h, if_neg (Nat.succ_ne_zero j), if_neg (Nat.succ_ne_zero i)]
        simp only [Nat.add_sub_cancel]
        rw [ih j]
      · rw [if_neg h, if_neg h]

theorem csA_row (x : List Char) : ∀ i j, csA x i j ≤ csA x i i := by
  intro i
  induction i with
  | zero =>
    intro j
    by_cases h : (x.getD 0 ' ' == x.getD j ' ') && !(b2j x (x.getD 0 ' ')).isEmpty
    · have hchar : x.getD 0 ' ' = x.getD j ' ' := by
        have := (Bool.and_eq_true _ _).mp h
        exact beq_iff_eq.mp this.1
      have hguard : ((x.getD 0 ' ' == x.getD 0 ' ') && !(b2j x (x.getD 0 ' ')).isEmpty) = true := by
        have hh := (Bool.and_eq_true _ _).mp h
        rw [beq_self_eq_true, hh.2]
        rfl
      rw [csA, csA, if_pos h, if_pos hguard]
    · rw [csA, if_neg h]
      omega
  | succ i ih =>
    intro j
    by_cases h : (x.getD (i + 1) ' ' == x.getD j ' ') && !(b2j x (x.getD (i + 1) ' ')).isEmpty
    · have hh := (Bool.and_eq_true _ _).mp h
      have hguard : ((x.getD (i + 1) ' ' == x.getD (i + 1) ' ') &&
          !(b2j x (x.getD (i + 1) ' ')).isEmpty) = true := by
        rw [beq_self_eq_true, hh.2]
        rfl
      rw [csA, csA, if_pos h, if_pos hguard, if_neg (Nat.succ_ne_zero i)]
      simp only [Nat.add_sub_cancel]
      by_cases hj : j = 0
      · rw [if_pos hj]
        omega
      · rw [if_neg hj]
        have := ih (j - 1)
        omega
    · rw [csA, if_neg h]
      omega

theorem csA_col (x : List Char) (i j : Nat) : csA x i j ≤ csA x j j := by
  rw [csA_symm]
  exact csA_row x j i

theorem b2j_eq_filter (x : List Char) (c : Char) (h : (b2j x c).isEmpty = false) :
    b2j x c = (List.range' 0 x.length).filter (fun j => x.getD j ' ' == c) := by
  unfold b2j at h ⊢
  by_cases ha : 200 ≤ x.length ∧ x.length / 100 + 1 <
      ((List.range x.length).filter (fun i => x.getD i ' ' == c)).length
  · rw [if_pos ha] at h
    exact absurd h (by simp)
  · rw [if_neg ha, List.range_eq_range']

theorem filter_range'_step (n m : Nat) (p : Nat → Bool) (h : m < n) :
    (List.range' m (n - m)).filter p =
      (if p m then [m] else []) ++ (List.range' (m + 1) (n - (m + 1))).filter p := by
  have he : n - m = (n - (m + 1)) + 1 := by omega
  rw [he, List.range'_succ, List.filter_cons]
  by_cases hp : p m <;> simp [hp]

theorem innerLoop_self (x : List Char) (i : Nat) (hin : i < x.length)
    (hnd : (b2j x (x.getD i ' ')).isEmpty = false)
    (old : Nat → Nat)
    (hold : ∀ j, j < x.length → old j = if i = 0 then 0 else csA x (i - 1) j) :
    ∀ (f m : Nat), x.length - m ≤ f →
    ∀ (g : Nat → Nat) (d s : Nat),
      (∀ j, g j = if j < m ∧ j < x.length ∧ x.getD j ' ' = x.getD i ' '
          then csA x i j else 0) →
      (∀ i', i' < i → csA x i' i' ≤ s) →
      (i < m → csA x i i ≤ s) →
      ∃ g' d' s',
        innerLoop old i 0 x.length
            ((List.range' m (x.length - m)).filter (fun j => x.getD j ' ' == x.getD i ' '))
            g (d, d, s) = (g', (d', d', s')) ∧
        (∀ j, g' j = if j < x.length ∧ x.getD j ' ' = x.getD i ' '
          then csA x i j else 0) ∧
        (∀ i', i' < i + 1 → csA x i' i' ≤ s') := by
  intro f
  induction f with
  | zero =>
    intro m hf g d s hg hdom hphase
    have hnm : x.length ≤ m := by omega
    have hz : x.length - m = 0 := by omega
    rw [hz]
    refine ⟨g, d, s, rfl, ?_, ?_⟩
    · intro j
      rw [hg j]
      by_cases h1 : j < x.length ∧ x.getD j ' ' = x.getD i ' '
      · rw [if_pos ⟨by omega, h1.1, h1.2⟩, if_pos h1]
      · rw [if_neg ?_, if_neg h1]
        rintro ⟨_, hb, hc⟩
        exact h1 ⟨hb, hc⟩
    · intro i' hi'
      rcases Nat.lt_succ_iff_lt_or_eq.mp hi' with h | h
      · exact hdom i' h
      · subst h
        exact hphase (by omega)
  | succ f ih =>
    intro m hf g d s hg hdom hphase
    by_cases hm : m < x.length
    · rw [filter_range'_step x.length m _ hm]
      by_cases hpm : (x.getD m ' ' == x.getD i ' ') = true
      · have hchar : x.getD m ' ' = x.getD i ' ' := beq_iff_eq.mp hpm
        have hguard : ((x.getD i ' ' == x.getD m ' ') &&
            !(b2j x (x.getD i ' ')).isEmpty) = true := by
          rw [show (x.getD i ' ' == x.getD m ' ') = true from beq_iff_eq.mpr hchar.symm, hnd]
          rfl
        have hK : (if m = 0 then 0 else old (m - 1)) + 1 = csA x i m := by
          cases i with
          | zero =>
            have : csA x 0 m = 1 := by
              rw [csA, hguard]
              rfl
            rw [this]
            by_cases hm0 : m = 0
            · rw [if_pos hm0]
            · rw [if_neg hm0, hold (m - 1) (by omega)]
              rfl
          | succ i' =>
            rw [csA, hguard]
            by_cases hm0 : m = 0
            · rw [if_pos hm0, if_pos hm0]
              rfl
            · rw [if_neg hm0, if_neg hm0, hold (m - 1) (by omega)]
              rfl
        have hstep : innerLoop old i 0 x.length
            (([m] ++ (List.range' (m + 1) (x.length - (m + 1))).filter
              (fun j => x.getD j ' ' == x.getD i ' '))) g (d, d, s) =
            innerLoop old i 0 x.length
              ((List.range' (m + 1) (x.length - (m + 1))).filter
                (fun j => x.getD j ' ' == x.getD i ' '))
              (fun y => if y = m then (if m = 0 then 0 else old (m - 1)) + 1 else g y)
              (if s < (if m = 0 then 0 else old (m - 1)) + 1
                then (i + 1 - ((if m = 0 then 0 else old (m - 1)) + 1),
                      m + 1 - ((if m = 0 then 0 else old (m - 1)) + 1),
                      (if m = 0 then 0 else old (m - 1)) + 1)
                else (d, d, s)) := by
          simp only [List.singleton_append, innerLoop, if_neg (Nat.not_lt_zero m),
            if_neg (not_le.mpr hm), List.nil_append]
          rfl
        rw [if_pos hpm, hstep]
        have hg2 : ∀ j, (fun y => if y = m then (if m = 0 then 0 else old (m - 1)) + 1
            else g y) j =
            if j < m + 1 ∧ j < x.length ∧ x.getD j ' ' = x.getD i ' '
            then csA x i j else 0 := by
          intro j
          have hbeta : (fun y => if y = m then (if m = 0 then 0 else old (m - 1)) + 1
              else g y) j = if j = m then (if m = 0 then 0 else old (m - 1)) + 1 else g j := rfl
          rw [hbeta]
          by_cases hj : j = m
          · subst hj
            rw [if_pos rfl, hK, if_pos ⟨by omega, hm, hchar⟩]
          · rw [if_neg hj, hg j]
            by_cases h1 : j < m ∧ j < x.length ∧ x.getD j ' ' = x.getD i ' '
            · rw [if_pos h1, if_pos ⟨by omega, h1.2⟩]
            · rw [if_neg h1, if_neg ?_]
              rintro ⟨ha, hb, hc⟩
              exact h1 ⟨by omega, hb, hc⟩
        rcases Nat.lt_trichotomy m i with hmi | hmi | hmi
        · have hnoupd : ¬ s < (if m = 0 then 0 else old (m - 1)) + 1 := by
            rw [hK]
            have h1 : csA x i m ≤ csA x m m := csA_col x i m
            have h2 : csA x m m ≤ s := hdom m hmi
            omega
          rw [if_neg hnoupd]
          exact ih (m + 1) (by omega) _ d s hg2 hdom (fun h => absurd h (by omega))
        · subst hmi
          by_cases hupd : s < (if m = 0 then 0 else old (m - 1)) + 1
          · rw [if_pos hupd]
            refine ih (m + 1) (by omega) _ _ _ hg2 ?_ ?_
            · intro i' hi'
              have := hdom i' hi'
              omega
            · intro _
              omega
          · rw [if_neg hupd]
            refine ih (m + 1) (by omega) _ d s hg2 hdom ?_
            intro _
            omega
        · have hii : csA x i i ≤ s := hphase hmi
          have hnoupd : ¬ s < (if m = 0 then 0 else old (m - 1)) + 1 := by
            rw [hK]
            have h1 : csA x i m ≤ csA x i i := csA_row x i m
            omega
          rw [if_neg hnoupd]
          exact ih (m + 1) (by omega) _ d s hg2 hdom (fun _ => hii)
      · rw [if_neg hpm, List.nil_append]
        have hg2 : ∀ j, g j =
            if j < m + 1 ∧ j < x.length ∧ x.getD j ' ' = x.getD i ' '
            then csA x i j else 0 := by
          intro j
          rw [hg j]
          by_cases hj : j = m
          · subst hj
            rw [if_neg ?_, if_neg ?_]
            · rintro ⟨_, _, hc⟩
              exact hpm (beq_iff_eq.mpr hc)
            · rintro ⟨ha, _⟩
              omega
          · by_cases h1 : j < m ∧ j < x.length ∧ x.getD j ' ' = x.getD i ' '
            · rw [if_pos h1, if_pos ⟨by omega, h1.2⟩]
            · rw [if_neg h1, if_neg ?_]
              rintro ⟨ha, hb, hc⟩
              exact h1 ⟨by omega, hb, hc⟩
        refine ih (m + 1) (by omega) g d s hg2 hdom ?_
        intro h
        have him : i < m := by
          rcases Nat.lt_or_ge i m with h' | h'
          · exact h'
          · exfalso
            have : i = m := by omega
            subst this
            exact hpm (beq_iff_eq.mpr rfl)
        exact hphase him
    · have hz : x.length - m = 0 := by omega
      rw [hz]
      refine ⟨g, d, s, rfl, ?_, ?_⟩
      · intro j
        rw [hg j]
        by_cases h1 : j < x.length ∧ x.getD j ' ' = x.getD i ' '
        · rw [if_pos ⟨by omega, h1.1, h1.2⟩, if_pos h1]
        · rw [if_neg ?_, if_neg h1]
          rintro ⟨_, hb, hc⟩
          exact h1 ⟨hb, hc⟩
      · intro i' hi'
        rcases Nat.lt_succ_iff_lt_or_eq.mp hi' with h | h
        · exact hdom i' h
        · subst h
          exact hphase (by omega)

theorem flmRows_self (x : List Char) :
    ∀ (cnt i0 : Nat), i0 + cnt = x.length →
    ∀ (g : Nat → Nat) (d s : Nat),
      (∀ j, j < x.length → g j = if i0 = 0 then 0 else csA x (i0 - 1) j) →
      (∀ i', i' < i0 → csA x i' i' ≤ s) →
      ∃ d' s', flmRows x x 0 x.length (List.range' i0 cnt) g (d, d, s) = (d', d', s') := by
  intro cnt
  induction cnt with
  | zero =>
    intro i0 _ g d s _ _
    exact ⟨d, s, rfl⟩
  | succ cnt ih =>
    intro i0 h0 g d s hg hdom
    have hi0 : i0 < x.length := by omega
    rw [List.range'_succ]
    have hstep : flmRows x x 0 x.length (i0 :: List.range' (i0 + 1) cnt) g (d, d, s) =
        flmRows x x 0 x.length (List.range' (i0 + 1) cnt)
          (innerLoop g i0 0 x.length (b2j x (x.getD i0 ' ')) (fun _ => 0) (d, d, s)).1
          (innerLoop g i0 0 x.length (b2j x (x.getD i0 ' ')) (fun _ => 0) (d, d, s)).2 := by
      simp only [flmRows]
    rw [hstep]
    by_cases hnd : (b2j x (x.getD i0 ' ')).isEmpty = true
    · have hb : b2j x (x.getD i0 ' ') = [] := by
        cases hbe : b2j x (x.getD i0 ' ')
        · rfl
        · rw [hbe] at hnd
          exact absurd hnd (by simp)
      rw [hb]
      have hil : innerLoop g i0 0 x.length ([] : List Nat) (fun _ => 0) (d, d, s) =
          ((fun _ => 0), (d, d, s)) := rfl
      rw [hil]
      refine ih (i0 + 1) (by omega) _ d s ?_ ?_
      · intro j hj
        rw [if_neg (Nat.succ_ne_zero i0)]
        have : csA x ((i0 + 1) - 1) j = 0 := by
          rw [Nat.add_sub_cancel]
          exact csA_drop x i0 j hnd
        rw [this]
      · intro i' hi'
        rcases Nat.lt_succ_iff_lt_or_eq.mp hi' with h | h
        · exact hdom i' h
        · subst h
          rw [csA_drop x i' i' hnd]
          omega
    · have hndf : (b2j x (x.getD i0 ' ')).isEmpty = false := by
        cases hbe : (b2j x (x.getD i0 ' ')).isEmpty
        · rfl
        · exact absurd hbe hnd
      rw [b2j_eq_filter x _ hndf]
      obtain ⟨g', d', s', heq, hg', hs'⟩ := innerLoop_self x i0 hi0 hndf g hg
        x.length 0 (by omega) (fun _ => 0) d s
        (fun j => by
          rw [if_neg ?_]
          rintro ⟨hc, _⟩
          exact Nat.not_lt_zero j hc)
        hdom (fun h => absurd h (Nat.not_lt_zero i0))
      rw [Nat.sub_zero] at heq
      rw [heq]
      refine ih (i0 + 1) (by omega) g' d' s' ?_ ?_
      · intro j hj
        rw [if_neg (Nat.succ_ne_zero i0), Nat.add_sub_cancel, hg' j]
        by_cases hc : x.getD j ' ' = x.getD i0 ' '
        · rw [if_pos ⟨hj, hc⟩]
        · rw [if_neg ?_, csA_ne x i0 j (fun hh => hc hh.symm)]
          rintro ⟨_, hc2⟩
          exact hc hc2
      · exact hs'

theorem extendLowerAux_diag (x : List Char) :
    ∀ (d s : Nat), extendLowerAux x x 0 0 d (d, d, s) = (0, 0, s + d) := by
  intro d
  induction d with
  | zero => intro s; rfl
  | succ d ih =>
    intro s
    have hguard : 0 < d + 1 ∧ 0 < d + 1 ∧
        (x.getD (d + 1 - 1) ' ' == x.getD (d + 1 - 1) ' ') = true :=
      ⟨Nat.succ_pos d, Nat.succ_pos d, beq_self_eq_true _⟩
    have hstep : extendLowerAux x x 0 0 (d + 1) (d + 1, d + 1, s) =
        extendLowerAux x x 0 0 d (d + 1 - 1, d + 1 - 1, s + 1) := by
      simp only [extendLowerAux, if_pos hguard]
    rw [hstep, Nat.add_sub_cancel, ih (s + 1)]
    have : s + 1 + d = s + (d + 1) := by omega
    rw [this]

theorem extendUpperAux_diag (x : List Char) :
    ∀ (fuel s : Nat), s + fuel = x.length →
      extendUpperAux x x x.length x.length fuel (0, 0, s) = (0, 0, x.length) := by
  intro fuel
  induction fuel with
  | zero =>
    intro s h
    have : s = x.length := by omega
    rw [← this]
    rfl
  | succ fuel ih =>
    intro s h
    have hguard : 0 + s < x.length ∧ 0 + s < x.length ∧
        (x.getD (0 + s) ' ' == x.getD (0 + s) ' ') = true :=
      ⟨by omega, by omega, beq_self_eq_true _⟩
    have hstep : extendUpperAux x x x.length x.length (fuel + 1) (0, 0, s) =
        extendUpperAux x x x.length x.length fuel (0, 0, s + 1) := by
      simp only [extendUpperAux, if_pos hguard]
    rw [hstep, ih (s + 1) (by omega)]

theorem find_longest_match_self (x : List Char) :
    find_longest_match x x 0 x.length 0 x.length = (0, 0, x.length) := by
  obtain ⟨d, s, hflm⟩ := flmRows_self x x.length 0 (by omega) (fun _ => 0) 0 0
    (fun j _ => by rw [if_pos rfl]) (fun i' h => absurd h (Nat.not_lt_zero i'))
  have hgood := flmRows_good x x 0 0 x.length x.length 0 (fun _ => 0) (0, 0, 0)
    (Nat.le_refl 0) (fun j => ⟨Nat.zero_le _, fun h => absurd rfl h⟩)
    (by
      dsimp only [GoodBest]
      exact ⟨Nat.le_refl 0, Nat.le_refl 0, by omega, by omega⟩)
  rw [Nat.zero_add] at hgood
  rw [hflm] at hgood
  obtain ⟨_, _, hds, _⟩ := hgood
  have hds' : d + s ≤ x.length := by
    dsimp only at hds
    exact hds
  unfold find_longest_match extendLower extendUpper
  rw [Nat.sub_zero, hflm]
  have h1 : extendLowerAux x x 0 0 (d, d, s).1 (d, d, s) = (0, 0, s + d) :=
    extendLowerAux_diag x d s
  rw [h1]
  have h2 : extendUpperAux x x x.length x.length
      (x.length - ((0, 0, s + d).1 + (0, 0, s + d).2.2)) (0, 0, s + d) = (0, 0, x.length) := by
    have : (0, 0, s + d).1 + (0, 0, s + d).2.2 = s + d := by
      dsimp only
      omega
    rw [this]
    exact extendUpperAux_diag x (x.length - (s + d)) (s + d) (by omega)
  rw [h2]

theorem matchesTotal_self (x : List Char) :
    matchesTotal x x 0 x.length 0 x.length = x.length := by
  unfold matchesTotal
  rcases hx : x.length with _ | n
  · rfl
  · have hflm := find_longest_match_self x
    rw [hx] at hflm
    have hfuel : (n + 1 - 0) + (n + 1 - 0) = ((n + 1) + n) + 1 := by omega
    rw [hfuel]
    have hstep : matchesTotalAux x x (((n + 1) + n) + 1) 0 (n + 1) 0 (n + 1) =
        (if (find_longest_match x x 0 (n + 1) 0 (n + 1)).2.2 = 0 then 0
          else (find_longest_match x x 0 (n + 1) 0 (n + 1)).2.2 +
            (if 0 < (find_longest_match x x 0 (n + 1) 0 (n + 1)).1 ∧
                0 < (find_longest_match x x 0 (n + 1) 0 (n + 1)).2.1
              then matchesTotalAux x x ((n + 1) + n) 0
                (find_longest_match x x 0 (n + 1) 0 (n + 1)).1 0
                (find_longest_match x x 0 (n + 1) 0 (n + 1)).2.1 else 0) +
            (if (find_longest_match x x 0 (n + 1) 0 (n + 1)).1 +
                  (find_longest_match x x 0 (n + 1) 0 (n + 1)).2.2 < n + 1 ∧
                (find_longest_match x x 0 (n + 1) 0 (n + 1)).2.1 +
                  (find_longest_match x x 0 (n + 1) 0 (n + 1)).2.2 < n + 1
              then matchesTotalAux x x ((n + 1) + n)
                ((find_longest_match x x 0 (n + 1) 0 (n + 1)).1 +
                  (find_longest_match x x 0 (n + 1) 0 (n + 1)).2.2) (n + 1)
                ((find_longest_match x x 0 (n + 1) 0 (n + 1)).2.1 +
                  (find_longest_match x x 0 (n + 1) 0 (n + 1)).2.2) (n + 1) else 0)) := by
      simp only [matchesTotalAux]
    rw [hstep, hflm]
    have hne : ((0, 0, n + 1) : Nat × Nat × Nat).2.2 ≠ 0 := Nat.succ_ne_zero n
    rw [if_neg hne, if_neg (by dsimp only; omega), if_neg (by dsimp only; omega)]

theorem sm_ratio_self (x : List Char) (hx : x ≠ []) : sm_ratio x x = 1 := by
  unfold sm_ratio calculate_ratio
  rw [matchesTotal_self]
  have hlen : x.length ≠ 0 := fun h => hx (List.length_eq_zero.mp h)
  rw [if_pos (by simpa using hlen)]
  have hq : ((x.length : ℚ)) ≠ 0 := Nat.cast_ne_zero.mpr hlen
  have hpos : (0 : ℚ) < ((x.length + x.length : Nat) : ℚ) := by
    exact_mod_cast Nat.pos_of_ne_zero (by omega)
  rw [div_eq_one_iff_eq (ne_of_gt hpos)]
  push_cast
  ring

/-- A longest-common-subsequence length over lines, written from the claim's
words ("a longest-common-subsequence-based sequence-matching ratio over the
lines of the two normalized texts"), for comparison with the code's
character-level matcher. -/
def lcsAux : Nat → List (List Char) → List (List Char) → Nat
  | 0, _, _ => 0
  | _ + 1, [], _ => 0
  | _ + 1, _ :: _, [] => 0
  | fuel + 1, xl :: xs, yl :: ys =>
    if xl = yl then 1 + lcsAux fuel xs ys
    else max (lcsAux fuel (xl :: xs) ys) (lcsAux fuel xs (yl :: ys))

def line_lcs_ratio (a b : String) : ℚ :=
  if (splitNL (normalize_text a).data).length + (splitNL (normalize_text b).data).length ≠ 0 then
    2 * (lcsAux
          ((splitNL (normalize_text a).data).length + (splitNL (normalize_text b).data).length)
          (splitNL (normalize_text a).data) (splitNL (normalize_text b).data) : ℚ) /
      ((((splitNL (normalize_text a).data).length +
          (splitNL (normalize_text b).data).length : Nat)) : ℚ)
  else 1

/-- C6 counterexample: the ratio is not symmetric (Ratcliff-Obershelp is
order-dependent: 0.5 against 0.75 on the pair `"abbb"`/`"bbab"`), hence also
not an LCS; and it is computed over characters, not lines: on
`"ab\ncd"`/`"ab\nce"` the code yields 0.8 while the claim's line-level
LCS ratio is 0.5. -/
theorem C6_similarity_counterexample :
    doc_similarity "abbb" "bbab" = some (1/2) ∧
    doc_similarity "bbab" "abbb" = some (3/4) ∧
    doc_similarity "abbb" "bbab" ≠ doc_similarity "bbab" "abbb" ∧
    line_lcs_ratio "ab\ncd" "ab\nce" = 1/2 ∧
    doc_similarity "ab\ncd" "ab\nce" = some (4/5) := by
  have hn1 : normalize_text "abbb" = "abbb" := by decide
  have hn2 : normalize_text "bbab" = "bbab" := by decide
  have hn3 : normalize_text "ab\ncd" = "ab\ncd" := by decide
  have hn4 : normalize_text "ab\nce" = "ab\nce" := by decide
  have hs1 : sm_ratio "abbb".data "bbab".data = calculate_ratio 2 8 := by
    have hM : matchesTotal "abbb".data "bbab".data 0 "abbb".data.length
        0 "bbab".data.length = 2 := by decide
    have hl : "abbb".data.length + "bbab".data.length = 8 := by decide
    unfold sm_ratio
    rw [hM, hl]
  have hs2 : sm_ratio "bbab".data "abbb".data = calculate_ratio 3 8 := by
    have hM : matchesTotal "bbab".data "abbb".data 0 "bbab".data.length
        0 "abbb".data.length = 3 := by decide
    have hl : "bbab".data.length + "abbb".data.length = 8 := by decide
    unfold sm_ratio
    rw [hM, hl]
  have hs3 : sm_ratio "ab\ncd".data "ab\nce".data = calculate_ratio 4 10 := by
    have hM : matchesTotal "ab\ncd".data "ab\nce".data 0 "ab\ncd".data.length
        0 "ab\nce".data.length = 4 := by decide
    have hl : "ab\ncd".data.length + "ab\nce".data.length = 10 := by decide
    unfold sm_ratio
    rw [hM, hl]
  have hc1 : calculate_ratio 2 8 = 1/2 := by unfold calculate_ratio; norm_num
  have hc2 : calculate_ratio 3 8 = 3/4 := by unfold calculate_ratio; norm_num
  have hc3 : calculate_ratio 4 10 = 4/5 := by unfold calculate_ratio; norm_num
  have hr1 : round4 ((1 : ℚ)/2) = 1/2 := by
    unfold round4
    rw [pyRound_intval ((1 : ℚ)/2) 4 5000 (by norm_num)]
    norm_num
  have hr2 : round4 ((3 : ℚ)/4) = 3/4 := by
    unfold round4
    rw [pyRound_intval ((3 : ℚ)/4) 4 7500 (by norm_num)]
    norm_num
  have hr3 : round4 ((4 : ℚ)/5) = 4/5 := by
    unfold round4
    rw [pyRound_intval ((4 : ℚ)/5) 4 8000 (by norm_num)]
    norm_num
  have hd1 : doc_similarity "abbb" "bbab" = some (1/2) := by
    unfold doc_similarity
    rw [if_neg (by decide), hn1, hn2, hs1, hc1, hr1]
  have hd2 : doc_similarity "bbab" "abbb" = some (3/4) := by
    unfold doc_similarity
    rw [if_neg (by decide), hn2, hn1, hs2, hc2, hr2]
  have hd3 : doc_similarity "ab\ncd" "ab\nce" = some (4/5) := by
    unfold doc_similarity
    rw [if_neg (by decide), hn3, hn4, hs3, hc3, hr3]
  refine ⟨hd1, hd2, ?_, ?_, hd3⟩
  · rw [hd1, hd2]
    intro h
    have := Option.some_inj.mp h
    norm_num at this
  · unfold line_lcs_ratio
    rw [if_pos (by decide)]
    have hl : (splitNL (normalize_text "ab\ncd").data).length +
        (splitNL (normalize_text "ab\nce").data).length = 4 := by decide
    rw [hl]
    have hlcs : lcsAux 4 (splitNL (normalize_text "ab\ncd").data)
        (splitNL (normalize_text "ab\nce").data) = 1 := by decide
    rw [hlcs]
    norm_num

/-- C6 (amended: the ratio is computed over the characters of the two
normalized texts, not their lines, and it is NOT symmetric — the matcher is
order-dependent; what holds is: `None` exactly for an empty input text, a
result always within `[0, 1]`, and self-similarity `1.0` whenever
normalization leaves the text unchanged). -/
theorem C6_doc_similarity (a b : String) :
    (doc_similarity a b = none ↔ (a = "" ∨ b = "")) ∧
    (∀ q, doc_similarity a b = some q → 0 ≤ q ∧ q ≤ 1) ∧
    (a ≠ "" → normalize_text a = a → doc_similarity a a = some 1) := by
  refine ⟨?_, ?_, ?_⟩
  · by_cases ha : a = "" <;> by_cases hb : b = "" <;> simp [doc_similarity, ha, hb]
  · intro q hq
    by_cases ha : a = ""
    · rw [doc_similarity, if_pos (by simp [ha])] at hq
      exact absurd hq (by simp)
    · by_cases hb : b = ""
      · rw [doc_similarity, if_pos (by simp [hb])] at hq
        exact absurd hq (by simp)
      · rw [doc_similarity, if_neg (by simp [ha, hb])] at hq
        obtain ⟨h0, h1⟩ := sm_ratio_unit (normalize_text a).data (normalize_text b).data
        obtain ⟨r0, r1⟩ := pyRound_unit
          (sm_ratio (normalize_text a).data (normalize_text b).data) 4 h0 h1
        have hq' := Option.some_inj.mp hq
        rw [← hq']
        exact ⟨r0, r1⟩
  · intro ha hnorm
    have h1 : doc_similarity a a = some (round4 (sm_ratio (normalize_text a).data
        (normalize_text a).data)) := by
      rw [doc_similarity, if_neg (by simp [ha])]
    rw [h1, hnorm]
    have hdata : a.data ≠ [] := by
      intro h
      apply ha
      apply String.ext
      rw [h]
    rw [sm_ratio_self a.data hdata]
    have h14 : round4 (1 : ℚ) = 1 := by
      unfold round4
      rw [pyRound_intval (1 : ℚ) 4 10000 (by norm_num)]
      norm_num
    rw [h14]

/-! ### C8: permissive review-report parsing -/

/-- Reduction of the parser on an unreadable or missing file. -/
theorem parse_review_report_none {sha : String → String} {f : FileJson}
    (hl : load_json f = none) :
    (parse_review_report sha f).1 = (if exists_file f then some "MISSING" else none) ∧
    (parse_review_report sha f).2.1 = none ∧
    (parse_review_report sha f).2.2.1 = ∅ := by
  unfold parse_review_report
  rw [hl]
  exact ⟨rfl, rfl, rfl⟩

theorem parse_review_report_status {sha : String → String} {f : FileJson}
    {data : List (String × JVal)} (hl : load_json f = some data) :
    (parse_review_report sha f).1 =
      (match jget data "status" with | some (.jstr s) => some s | _ => none) := by
  unfold parse_review_report
  rw [hl]

theorem parse_review_report_count {sha : String → String} {f : FileJson}
    {data : List (String × JVal)} (hl : load_json f = some data) :
    (parse_review_report sha f).2.1 =
      some (match jget data "issues" with
        | some (.jarr xs) => xs
        | _ => ([] : List JVal)).length := by
  unfold parse_review_report
  rw [hl]

/-- C8 (amended: the "present but unreadable" marker is the literal string
`"MISSING"`, which the parser also returns verbatim when a readable report
itself declares that status, so the "exactly when" direction carries that
extra disjunct): parsing is total (never raises); it yields the marker iff
the file exists but is not valid structured data — or the readable report's
own status field is the literal string `"MISSING"`; an unreadable report has
unknown count and empty section set; a missing file yields an absent status;
a readable report yields its status string (`none` when absent or not a
string) and the length of its issues list, with an absent or non-list
`issues` field treated as the empty list. -/
theorem C8_parse_review (sha : String → String) (f : FileJson) :
    ((parse_review_report sha f).1 = some "MISSING" ↔
      ((exists_file f = true ∧ load_json f = none) ∨
        (∃ data, load_json f = some data ∧ jget data "status" = some (.jstr "MISSING")))) ∧
    (exists_file f = true ∧ load_json f = none →
      (parse_review_report sha f).2.1 = none ∧ (parse_review_report sha f).2.2.1 = ∅) ∧
    (f = FileJson.absent → (parse_review_report sha f).1 = none) ∧
    (∀ data, load_json f = some data →
      (parse_review_report sha f).1 =
        (match jget data "status" with | some (.jstr s) => some s | _ => none) ∧
      (parse_review_report sha f).2.1 =
        some (match jget data "issues" with
          | some (.jarr xs) => xs
          | _ => ([] : List JVal)).length) := by
  rcases hl : load_json f with _ | data
  · obtain ⟨hn1, hn2, hn3⟩ := @parse_review_report_none sha _ hl
    refine ⟨?_, fun _ => ⟨hn2, hn3⟩, ?_, ?_⟩
    · rw [hn1]
      constructor
      · intro hmark
        by_cases hex : exists_file f = true
        · exact Or.inl ⟨hex, rfl⟩
        · rw [if_neg hex] at hmark
          exact absurd hmark (by simp)
      · rintro (⟨hex, _⟩ | ⟨data, hdata, _⟩)
        · rw [if_pos hex]
        · exact absurd hdata (by simp)
    · intro habs
      have hex : exists_file f = false := by rw [habs]; rfl
      rw [hn1, hex]
      rfl
    · intro data hdata
      exact absurd hdata (by simp)
  · have hstat := @parse_review_report_status sha _ _ hl
    have hcount := @parse_review_report_count sha _ _ hl
    refine ⟨?_, ?_, ?_, ?_⟩
    · rw [hstat]
      constructor
      · intro hmark
        refine Or.inr ⟨data, rfl, ?_⟩
        rcases hs : jget data "status" with _ | j
        · rw [hs] at hmark
          exact absurd hmark (by simp)
        · cases j <;> rw [hs] at hmark
          case jstr s =>
            have hseq : s = "MISSING" := by simpa using hmark
            subst hseq
            rfl
          all_goals exact absurd hmark (by simp)
      · rintro (⟨_, hnone⟩ | ⟨data', hdata', hs⟩)
        · exact absurd hnone (by simp)
        · obtain rfl : data = data' := Option.some_inj.mp hdata'
          rw [hs]
    · rintro ⟨_, hnone⟩
      exact absurd hnone (by simp)
    · intro habs
      rw [habs] at hl
      exact absurd hl (by simp [load_json])
    · intro data' hdata'
      obtain rfl : data = data' := Option.some_inj.mp hdata'
      exact ⟨hstat, hcount⟩

/-- A readable report that itself declares `status = "MISSING"`. -/
def cm_report : FileJson := .val "raw" (.jobj [("status", .jstr "MISSING")])

/-- C8 counterexample: a readable report whose own `status` field is the
literal string `"MISSING"` makes the parser return the "present but
unreadable" marker even though the file is valid structured data, refuting
the claim's "exactly when the report file exists but is not valid structured
data". -/
theorem C8_missing_marker_counterexample :
    (parse_review_report (fun s => s) cm_report).1 = some "MISSING" ∧
    load_json cm_report = some [("status", JVal.jstr "MISSING")] ∧
    exists_file cm_report = true :=
  ⟨rfl, rfl, rfl⟩

/-- A readable report with one well-formed issue and one junk entry. -/
def rf_report : FileJson := .val "r" (.jobj
  [("status", .jstr "FAIL"),
   ("issues", .jarr [.jobj [("section", .jstr "A")], .jstr "junk"])])

theorem C8_parse_review_witness :
    (parse_review_report (fun s => s) rf_report).1 = some "FAIL" ∧
    (parse_review_report (fun s => s) rf_report).2.1 = some 2 := by
  obtain ⟨h1, h2⟩ := (C8_parse_review (fun s => s) rf_report).2.2.2
    [("status", JVal.jstr "FAIL"),
     ("issues", JVal.jarr [JVal.jobj [("section", JVal.jstr "A")], JVal.jstr "junk"])] rfl
  exact ⟨h1.trans rfl, h2.trans rfl⟩

end AnalyzeOutputs
